import Mathlib

/-!
Verification development for the `arcaea-js` chart viewer (src/arcaea.js).

The code is shallowly embedded: JS numbers on the timing/position paths are
modelled as exact rationals (`ℚ`), JS arrays as lists, and the ambient
singletons (`GameplayManager.instance.timing`, `.length`,
`.audioManager.offset`, `TimingManager.instance.dropRate`) are threaded as
explicit parameters (`now`, `songLength`, `off`, `dr`).  `Math.floor` is
`Int.floor`.  The derived, sorted timing-event list of a `TimingGroup`
(`getTimingEvents()`) is the `List Timing` parameter of each conversion
function; sortedness is a hypothesis where a theorem needs it.
-/

/-- A timing breakpoint (`TimingEvent`): wall-clock `time` in ms and the
`bpm` active from that time on.  `beatsPerLine` plays no role in any of the
conversion routines and is omitted here. -/
structure Timing where
  time : ℚ
  bpm : ℚ
deriving DecidableEq, Repr

/-- Default element used for out-of-range array reads (never reached on the
paths the theorems traverse). -/
def defT : Timing := ⟨0, 0⟩

/-- `timings[i].time`. -/
def tTime (ts : List Timing) (i : ℕ) : ℚ := (ts.getD i defT).time

/-- `timings[i].bpm`. -/
def tBpm (ts : List Timing) (i : ℕ) : ℚ := (ts.getD i defT).bpm

/-- `TimingGroup.getBaseBpm`: the bpm of the first (earliest) timing event.
The JS code throws `AffFormatError` when the group has no timing event; all
theorems below assume a non-empty list. -/
def getBaseBpm (ts : List Timing) : ℚ := (ts.headD defT).bpm

/-- The first-match interval scan of `getPosByTimingWithStart`:
`for(i=0;i<len-1;i++) if(x >= t[i].time && x < t[i+1].time) { a = i; break; }`
with `a` defaulting to `0` when no pair matches.  The extra `fuel` argument
only makes the recursion structural; it is instantiated with `ts.length`,
which dominates the loop's remaining iteration count. -/
def firstHitAux (ts : List Timing) (x : ℚ) : ℕ → ℕ → ℕ
  | _, 0 => 0
  | i, fuel + 1 =>
    if i + 1 < ts.length then
      if tTime ts i ≤ x ∧ x < tTime ts (i + 1) then i
      else firstHitAux ts x (i + 1) fuel
    else 0

/-- The first-match scan started at index 0 with enough fuel. -/
def firstHit (ts : List Timing) (x : ℚ) : ℕ := firstHitAux ts x 0 ts.length

/-- Interval index of `x`, as computed in `getPosByTimingWithStart`: the
first-match scan, overridden to the last index when `x` is at/after the last
breakpoint (`if(current >= timings[len-1].time) a = len-1`). -/
def segIdx (ts : List Timing) (x : ℚ) : ℕ :=
  if ts.length ≠ 0 ∧ tTime ts (ts.length - 1) ≤ x then ts.length - 1
  else firstHit ts x

/-- One term of the segment sum in `getPosByTimingWithStart` (the JS body
orders the branches head / interior / tail; for `i` in `[a,b]` with `a ≠ b`
they are mutually exclusive, so the equivalent head / tail / interior order
is used here).  The JS `offset` variable has already been zeroed at this
point of the code, so it does not appear. -/
def posSegTerm (ts : List Timing) (base dr current target : ℚ) (a b i : ℕ) : ℚ :=
  if i = a then (tTime ts (i + 1) - current) * tBpm ts i / base * dr
  else if i = b then (target - tTime ts i) * tBpm ts i / base * dr
  else (tTime ts (i + 1) - tTime ts i) * tBpm ts i / base * dr

/-- Sum of `f i` for `i` in the closed index range `[a, b]`. -/
def sumIdx (f : ℕ → ℚ) (a b : ℕ) : ℚ := ((List.range' a (b + 1 - a)).map f).sum

/-- The unsigned core of `getPosByTimingWithStart`, for the already-ordered,
already-offset-shifted endpoints `current ≤ target`: locate both interval
indices, then either a single multiplication (same interval) or the
head/interior/tail segment sum. -/
def posCore (ts : List Timing) (dr current target : ℚ) : ℚ :=
  let a := segIdx ts current
  let b := segIdx ts target
  let base := getBaseBpm ts
  if a = b then (target - current) * tBpm ts a / base * dr
  else sumIdx (posSegTerm ts base dr current target a b) a b

/-- `TimingGroup.getPosByTimingWithStart(start, timing)`: signed scrolled
position between two wall-clock instants.  Both endpoints are shifted by the
ambient audio offset, the smaller one becomes `current` and the larger one
`target`, position accumulates by segment at rate `bpm / baseBpm * dropRate`,
and the sign is flipped when `start > timing`. -/
def getPosByTimingWithStart (ts : List Timing) (dr off start timing : ℚ) : ℚ :=
  let current := (if start > timing then timing else start) - off
  let target := (if start > timing then start else timing) - off
  let pos := posCore ts dr current target
  if start > timing then -pos else pos

/-- The per-segment scroll rate `bpm[i] / baseBpm * dropRate` (proof-side
abbreviation for regrouping the products of `posSegTerm`). -/
def segRate (ts : List Timing) (dr : ℚ) (i : ℕ) : ℚ := tBpm ts i / getBaseBpm ts * dr

/-- Sum of the full interior segment advances
`(t[j+1].time - t[j].time) * rate j` for `j ∈ [k, b)` (proof-side). -/
def iSum (ts : List Timing) (dr : ℚ) (k b : ℕ) : ℚ :=
  ((List.range' k (b - k)).map (fun j => (tTime ts (j + 1) - tTime ts j) * segRate ts dr j)).sum

/-- Accumulated walk position of `getTimingByPos` on arrival at index `i`,
for a walk started in breakpoint interval `a` at shifted current time `y`
(proof-side): `0` at the head, then the head segment plus the interior
segments up to `i`. -/
def walkAcc (ts : List Timing) (dr y : ℚ) (a : ℕ) (i : ℤ) : ℚ :=
  if i = (a : ℤ) then 0
  else (tTime ts (a + 1) - y) * segRate ts dr a + iSum ts dr (a + 1) i.toNat

/-- The scan of `TimingGroup.getBpmByTiming`: strict comparisons on both
ends (`timing > t[i].time && timing < t[i+1].time`), falling through to the
last breakpoint's bpm.  `fuel` makes the recursion structural and is
instantiated with `ts.length`. -/
def bpmScanAux (ts : List Timing) (x : ℚ) : ℕ → ℕ → ℚ
  | _, 0 => tBpm ts (ts.length - 1)
  | i, fuel + 1 =>
    if i + 1 < ts.length then
      if tTime ts i < x ∧ x < tTime ts (i + 1) then tBpm ts i
      else bpmScanAux ts x (i + 1) fuel
    else tBpm ts (ts.length - 1)

/-- `TimingGroup.getBpmByTiming(timing)`. -/
def getBpmByTiming (ts : List Timing) (x : ℚ) : ℚ := bpmScanAux ts x 0 ts.length

/-- JS `(bpm || 1)`: `0` is falsy, every other (non-NaN) number is truthy. -/
def bpmOr1 (b : ℚ) : ℚ := if b = 0 then 1 else b

/-- `timings[i].time` for a signed loop index (`getTimingByPos` computes
`end = timings.length - 1`, which is `-1` in JS for an empty list; on every
executed access the index is a valid array position, so the `toNat` view is
only a typing device). -/
def tTimeZ (ts : List Timing) (i : ℤ) : ℚ := tTime ts i.toNat

/-- `timings[i].bpm` for a signed loop index. -/
def tBpmZ (ts : List Timing) (i : ℤ) : ℚ := tBpm ts i.toNat

/-- The last-match start scan of `getTimingByPos`:
`for(i=0;i<len-1;i++) if(time >= t[i].time+off && time < t[i+1].time+off) start = i;`
— no `break`, so the last matching index wins, with accumulator
default `0`.  Fuel is instantiated with `ts.length`. -/
def lastHitAux (ts : List Timing) (off now : ℚ) : ℕ → ℕ → ℕ → ℕ
  | _, acc, 0 => acc
  | i, acc, fuel + 1 =>
    if i + 1 < ts.length then
      lastHitAux ts off now (i + 1)
        (if tTime ts i + off ≤ now ∧ now < tTime ts (i + 1) + off then i else acc) fuel
    else acc

/-- The `start` index of `getTimingByPos`: the last-match scan followed by
`if(time >= timings[end].time + offset) start = end;` (which on an empty
list compares against `undefined` and leaves `start` unchanged). -/
def gtbpStart (ts : List Timing) (off now : ℚ) : ℕ :=
  let s := lastHitAux ts off now 0 0 ts.length
  if ts.length ≠ 0 ∧ tTime ts (ts.length - 1) + off ≤ now then ts.length - 1 else s

/-- The bracket test of `getTimingByPos`'s forward walk: non-strict on the
head segment (`i == start`), strict on interior and final segments. -/
def brTest (isHead : Bool) (sp d pos : ℚ) : Bool :=
  if isHead then decide ((sp + d ≤ pos ∧ sp ≥ pos) ∨ (sp + d ≥ pos ∧ sp ≤ pos))
  else decide ((sp + d < pos ∧ sp > pos) ∨ (sp + d > pos ∧ sp < pos))

/-- The per-segment position delta of `getTimingByPos`'s walk: the head
segment runs from the current clock `now` to the next breakpoint, the final
segment from its breakpoint to the end of the song, interior segments
between consecutive breakpoints. -/
def wDelta (ts : List Timing) (off now songLength base dr : ℚ) (start endI i : ℤ) : ℚ :=
  if i = start then (tTimeZ ts (i + 1) + off - now) * (tBpmZ ts i / base) * dr
  else if i = endI then (songLength - tTimeZ ts i - off) * (tBpmZ ts i / base) * dr
  else (tTimeZ ts (i + 1) - tTimeZ ts i) * (tBpmZ ts i / base) * dr

/-- The walk of `getTimingByPos` over the index list `[start..end]`,
carrying the accumulated position `sp` and the remaining `depth` count;
returns `breakPos` (`none` for the JS `-1`) and the accumulated position at
the break. -/
def walkGo (ts : List Timing) (off now songLength base dr pos : ℚ) (start endI : ℤ) :
    List ℤ → ℚ → ℕ → Option ℤ × ℚ
  | [], sp, _ => (none, sp)
  | i :: rest, sp, dc =>
    let d := wDelta ts off now songLength base dr start endI i
    if brTest (decide (i = start)) sp d pos then
      if dc = 0 then (some i, sp)
      else walkGo ts off now songLength base dr pos start endI rest (sp + d) (dc - 1)
    else walkGo ts off now songLength base dr pos start endI rest (sp + d) dc

/-- Builder for the walk's index list `[s..endI]` (empty when `endI < s`,
matching the not-entered JS `for` loop); `fuel` is the exact list length
`(endI + 1 - s).toNat`. -/
def walkIdxsAux (endI : ℤ) : ℤ → ℕ → List ℤ
  | _, 0 => []
  | s, fuel + 1 => if s ≤ endI then s :: walkIdxsAux endI (s + 1) fuel else []

/-- The index list `[start..endI]` of the walk. -/
def walkIdxs (start endI : ℤ) : List ℤ := walkIdxsAux endI start (endI + 1 - start).toNat

/-- The return step shared by every exit of `getTimingByPos`:
`if(endTime > songLength) return songLength; return Math.floor(endTime);`. -/
def floorClamp (songLength endTime : ℚ) : ℚ :=
  if endTime > songLength then songLength else (⌊endTime⌋ : ℚ)

/-- `TimingGroup.getTimingByPos(pos, depth)`: inverse conversion from a
relative position (measured from the current clock time `now`) back to a
wall-clock time.  When the current time sits in the last breakpoint interval
the rate equation is inverted directly; otherwise the walk searches for the
`depth`-th bracketing segment and inverts there; if no segment brackets, the
`endTime` is the song length.  Every exit goes through `floorClamp`. -/
def getTimingByPos (ts : List Timing) (dr off now songLength pos : ℚ) (depth : ℕ) : ℚ :=
  let endI : ℤ := (ts.length : ℤ) - 1
  let start : ℤ := (gtbpStart ts off now : ℤ)
  let base := getBaseBpm ts
  if start ≠ endI then
    match walkGo ts off now songLength base dr pos start endI (walkIdxs start endI) 0 depth with
    | (some bp, sp) =>
      let delta := pos - sp
      let endTime :=
        if bp = start then
          if delta = 0 then (if tBpmZ ts bp = 0 then tTimeZ ts bp + off else now)
          else delta / (bpmOr1 (tBpmZ ts bp) / base * dr) + now
        else delta / (bpmOr1 (tBpmZ ts bp) / base * dr) + tTimeZ ts bp + off
      floorClamp songLength endTime
    | (none, _) => floorClamp songLength songLength
  else
    floorClamp songLength (pos / (bpmOr1 (tBpmZ ts endI) / base * dr) + now)

/-- The shared judge-timing enumeration loop of `HoldNote` and `Arc`
(`while(true){ t = floor(time + n*interval); if(t < endTime) push(t);
if(total == ++n) break; }`).  `fuel` is the exact number of iterations the
loop performs before its break condition `total == n+1` fires (the callers
pass `total - n`); the `fuel = 0` case is unreachable on those calls. -/
def judgeLoop (time interval endTime : ℚ) (total : ℤ) : ℕ → ℕ → List ℤ
  | _, 0 => []
  | n, fuel + 1 =>
    let t := ⌊time + (n : ℚ) * interval⌋
    (if (t : ℚ) < endTime then [t] else []) ++
      (if total = (n : ℤ) + 1 then [] else judgeLoop time interval endTime total (n + 1) fuel)

/-- `HoldNote.calculateJudgeTimings`, for a hold in a group whose sorted
timing events are `ts`.  The JS guard `if(u ^ 1 > total)` parses as
`u ^ (1 > total)` (relational `>` binds tighter than bitwise `^`), and
`u` is the constant `0`, so the midpoint fallback fires exactly when
`total < 1`.  When `total == 1` the `while` loop is entered with `n = 1`
and its break condition `total == ++n` (i.e. `n + 1 == 1`) can never hold
for the increasing `n`, so the JS function never terminates: that
divergence is modelled as `none`.  Terminating runs return `some` of the
pushed list. -/
def holdJudgeTimings (ts : List Timing) (time endTime : ℚ) : Option (List ℤ) :=
  let bpm := getBpmByTiming ts time
  if bpm ≤ 0 then some []
  else
    let interval := 60000 / bpm / (if bpm ≥ 255 then 1 else 2)
    let total : ℤ := ⌊(endTime - time) / interval⌋
    if 1 > total then some [⌊time + (endTime - time) * (1 / 2)⌋]
    else if total = 1 then none
    else some (judgeLoop time interval endTime total 1 (total - 1).toNat)

/-- `Arc.calculateJudgeTimings`: empty for void or zero-length arcs and for
non-positive local bpm; otherwise `u = renderHead ? 0 : 1`, and the guard
`(u ^ 1) >= total` (correctly parenthesised here, unlike the hold variant)
takes the midpoint fallback; else the loop runs from `n = u ^ 1`, which
always terminates because `u ^ 1 < total`. -/
def arcJudgeTimings (ts : List Timing) (time endTime : ℚ) (isVoid renderHead : Bool) :
    List ℤ :=
  if isVoid then []
  else if endTime = time then []
  else
    let u : ℕ := if renderHead then 0 else 1
    let bpm := getBpmByTiming ts time
    if bpm ≤ 0 then []
    else
      let interval := 60000 / bpm / (if bpm ≥ 255 then 1 else 2)
      let total : ℤ := ⌊(endTime - time) / interval⌋
      if ((u ^^^ 1 : ℕ) : ℤ) ≥ total then [⌊time + (endTime - time) * (1 / 2)⌋]
      else judgeLoop time interval endTime total (u ^^^ 1) (total - ((u ^^^ 1 : ℕ) : ℤ)).toNat

/-- The group's derived timing list is sorted ascending by time
(`getTimingEvents` sorts by `a.time - b.time`). -/
abbrev TimeSorted (ts : List Timing) : Prop :=
  List.Chain' (fun u v => u.time ≤ v.time) ts

/-- Strictly ascending breakpoint times (no two timing events share a
time). -/
abbrev StrictTimeSorted (ts : List Timing) : Prop :=
  List.Chain' (fun u v => u.time < v.time) ts

/-- Modelled from the spec: claim C7's enumeration of arc judge instants —
interval `60000 / bpm / (1 if bpm ≥ 255 else 2)`, instants
`time + n*interval` for `n` from the starting offset (`0` when the head is
rendered, `1` when it is suppressed) up to `total = floor(duration/interval)`
inclusive, floored to integer milliseconds, discarding instants at or after
`endTime`.  Used only for comparison with `arcJudgeTimings`. -/
def specArcJudgeTimings (ts : List Timing) (time endTime : ℚ) (renderHead : Bool) : List ℤ :=
  let bpm := getBpmByTiming ts time
  let interval := 60000 / bpm / (if bpm ≥ 255 then 1 else 2)
  let total : ℤ := ⌊(endTime - time) / interval⌋
  let s : ℕ := if renderHead then 0 else 1
  (((List.range' s (total + 1 - (s : ℤ)).toNat).map
    (fun n => ⌊time + (n : ℚ) * interval⌋)).filter (fun t => decide ((t : ℚ) < endTime)))

/-! ## Chart text parsing (`Chart.fromRaw`, `ArcaeaEvent.fromRaw`) and export -/

/-- Characters of a string literal (notation helper). -/
def strL (s : String) : List Char := s.data

/-- Whitespace for the `String.trim` calls of the parser. -/
def isWS (c : Char) : Bool := (c == ' ') || (c == '\t') || (c == '\r')

/-- `String.trim`: strip whitespace from both ends. -/
def trim (l : List Char) : List Char :=
  ((l.dropWhile isWS).reverse.dropWhile isWS).reverse

/-- `String.split` on a separator character (`raw.split("\n")`): always
returns at least one (possibly empty) piece. -/
def splitOn (c : Char) : List Char → List (List Char)
  | [] => [[]]
  | x :: xs =>
    if x == c then [] :: splitOn c xs
    else
      match splitOn c xs with
      | [] => [[x]]
      | h :: t => (x :: h) :: t

/-- Split at the first occurrence of `c`: `some (before, after)`, or `none`
when `c` does not occur.  This is the exact semantics of a lazy regex group
`(.*?)` delimited by the single literal `c` (laziness against a one-character
delimiter never backtracks past the first occurrence). -/
def splitAtFirst (c : Char) : List Char → Option (List Char × List Char)
  | [] => none
  | x :: xs =>
    if x == c then some ([], xs)
    else
      match splitAtFirst c xs with
      | none => none
      | some (pre, post) => some (x :: pre, post)

/-- Strip a literal prefix, or `none` if it does not match. -/
def dropPre : List Char → List Char → Option (List Char)
  | [], l => some l
  | _, [] => none
  | p :: ps, x :: xs => if p == x then dropPre ps xs else none

/-- Suffix after the first occurrence of the pattern `p` (regex literal
search), or `none` when `p` does not occur. -/
def findSub (p : List Char) : List Char → Option (List Char)
  | [] => if p = [] then some [] else none
  | x :: xs =>
    match dropPre p (x :: xs) with
    | some r => some r
    | none => findSub p xs

/-- Numeric value of a digit run. -/
def digitsToNat (l : List Char) : ℕ :=
  l.foldl (fun acc c => 10 * acc + (c.toNat - ('0').toNat)) 0

/-- JS `parseInt`: optional sign then a leading digit run; `NaN` (modelled
as `none`) when no digits are found. -/
def parseIntJS (l : List Char) : Option ℤ :=
  let s := l.dropWhile isWS
  match s with
  | '-' :: r =>
    let ds := r.takeWhile Char.isDigit
    if ds = [] then none else some (-(digitsToNat ds : ℤ))
  | '+' :: r =>
    let ds := r.takeWhile Char.isDigit
    if ds = [] then none else some ((digitsToNat ds : ℤ))
  | _ =>
    let ds := s.takeWhile Char.isDigit
    if ds = [] then none else some ((digitsToNat ds : ℤ))

/-- JS `parseFloat` for the decimal forms the charts use (optional sign,
integer digits, optional fraction digits; the exponent form never occurs in
chart data): `NaN` (`none`) when no digits are found. -/
def parseFloatJS (l : List Char) : Option ℚ :=
  let s := l.dropWhile isWS
  let core := fun (r : List Char) (sign : ℚ) =>
    let ip := r.takeWhile Char.isDigit
    let r2 := r.drop ip.length
    let fp := match r2 with
      | '.' :: r3 => r3.takeWhile Char.isDigit
      | _ => []
    if ip = [] ∧ fp = [] then none
    else some (sign * ((digitsToNat ip : ℚ) + (digitsToNat fp : ℚ) / 10 ^ fp.length))
  match s with
  | '-' :: r => core r (-1)
  | '+' :: r => core r 1
  | _ => core s 1

/-- Parse errors: `AffFormatError` with its message, or the JS `TypeError`
raised by reading capture groups of a failed (`null`) regex match. -/
inductive PErr where
  | format (msg : List Char)
  | typeErr
  deriving DecidableEq

/-- The chart events, with `parseInt`/`parseFloat` `NaN` results carried as
`none` (JS stores the `NaN` silently). -/
inductive AEvent where
  | tap (time lane : Option ℤ)
  | hold (time endTime lane : Option ℤ)
  | arc (time endTime : Option ℤ) (xStart xEnd : Option ℚ) (lineType : List Char)
      (yStart yEnd : Option ℚ) (color : Option ℤ) (isVoid : Bool)
      (arcTaps : List (Option ℤ))
  | timing (time : Option ℤ) (bpm beatsPerLine : Option ℚ)
  | camera (time : Option ℤ) (tx ty tz rx ry rz : Option ℚ) (ctype : List Char)
      (duration : Option ℤ)
  deriving DecidableEq

/-- `TapNote.fromRaw`: `/\((.*?),(.*?)\)/`. -/
def tapFromRaw (line : List Char) : Except PErr AEvent :=
  match splitAtFirst '(' line with
  | none => .error .typeErr
  | some (_, r1) =>
    match splitAtFirst ',' r1 with
    | none => .error .typeErr
    | some (g1, r2) =>
      match splitAtFirst ')' r2 with
      | none => .error .typeErr
      | some (g2, _) => .ok (.tap (parseIntJS g1) (parseIntJS g2))

/-- `HoldNote.fromRaw`: `/hold\((.*?),(.*?),(.*?)\)/` (anchored: the
dispatcher only calls this when the line starts with the literal). -/
def holdFromRaw (line : List Char) : Except PErr AEvent :=
  match dropPre (strL ("hold(")) line with
  | none => .error .typeErr
  | some r1 =>
    match splitAtFirst ',' r1 with
    | none => .error .typeErr
    | some (g1, r2) =>
      match splitAtFirst ',' r2 with
      | none => .error .typeErr
      | some (g2, r3) =>
        match splitAtFirst ')' r3 with
        | none => .error .typeErr
        | some (g3, _) =>
          .ok (.hold (parseIntJS g1) (parseIntJS g2) (parseIntJS g3))

/-- `TimingEvent.fromRaw`: `/timing\((.*?),(.*?),(.*?)\)/` (anchored). -/
def timingFromRaw (line : List Char) : Except PErr AEvent :=
  match dropPre (strL ("timing(")) line with
  | none => .error .typeErr
  | some r1 =>
    match splitAtFirst ',' r1 with
    | none => .error .typeErr
    | some (g1, r2) =>
      match splitAtFirst ',' r2 with
      | none => .error .typeErr
      | some (g2, r3) =>
        match splitAtFirst ')' r3 with
        | none => .error .typeErr
        | some (g3, _) =>
          .ok (.timing (parseIntJS g1) (parseFloatJS g2) (parseFloatJS g3))

/-- `CameraEvent.fromRaw`: nine lazy groups (anchored). -/
def cameraFromRaw (line : List Char) : Except PErr AEvent :=
  match dropPre (strL ("camera(")) line with
  | none => .error .typeErr
  | some r1 =>
    match splitAtFirst ',' r1 with
    | none => .error .typeErr
    | some (g1, r2) =>
      match splitAtFirst ',' r2 with
      | none => .error .typeErr
      | some (g2, r3) =>
        match splitAtFirst ',' r3 with
        | none => .error .typeErr
        | some (g3, r4) =>
          match splitAtFirst ',' r4 with
          | none => .error .typeErr
          | some (g4, r5) =>
            match splitAtFirst ',' r5 with
            | none => .error .typeErr
            | some (g5, r6) =>
              match splitAtFirst ',' r6 with
              | none => .error .typeErr
              | some (g6, r7) =>
                match splitAtFirst ',' r7 with
                | none => .error .typeErr
                | some (g7, r8) =>
                  match splitAtFirst ',' r8 with
                  | none => .error .typeErr
                  | some (g8, r9) =>
                    match splitAtFirst ')' r9 with
                    | none => .error .typeErr
                    | some (g9, _) =>
                      .ok (.camera (parseIntJS g1) (parseFloatJS g2)
                        (parseFloatJS g3) (parseFloatJS g4) (parseFloatJS g5)
                        (parseFloatJS g6) (parseFloatJS g7) g8 (parseIntJS g9))

/-- The arctap list of `Arc.fromRaw`: each entry is
`parseInt(n.substring("arctap(".length, n.length - 1))`. -/
def arcTapsFromRaw (g : List Char) : List (Option ℤ) :=
  (splitOn ',' g).map (fun n => parseIntJS ((n.drop 7).dropLast))

/-- `Arc.fromRaw`:
`/arc\((\d+?),(\d+?),(.*?),(.*?),(.*?),(.*?),(.*?),(.*?),(.*?),(.*?)\)(?:\[(.*?)\])?;/`
(anchored; the two `(\d+?)` groups demand a non-empty digit run directly
followed by the comma, and the trailing `;` is required). -/
def arcFromRaw (line : List Char) : Except PErr AEvent :=
  match dropPre (strL ("arc(")) line with
  | none => .error .typeErr
  | some r =>
    let d1 := r.takeWhile Char.isDigit
    let ra := r.drop d1.length
    match ra with
    | ',' :: rb =>
      if d1 = [] then .error .typeErr
      else
        let d2 := rb.takeWhile Char.isDigit
        let rc := rb.drop d2.length
        match rc with
        | ',' :: rd =>
          if d2 = [] then .error .typeErr
          else
            match splitAtFirst ',' rd with
            | none => .error .typeErr
            | some (g3, r4) =>
              match splitAtFirst ',' r4 with
              | none => .error .typeErr
              | some (g4, r5) =>
                match splitAtFirst ',' r5 with
                | none => .error .typeErr
                | some (g5, r6) =>
                  match splitAtFirst ',' r6 with
                  | none => .error .typeErr
                  | some (g6, r7) =>
                    match splitAtFirst ',' r7 with
                    | none => .error .typeErr
                    | some (g7, r8) =>
                      match splitAtFirst ',' r8 with
                      | none => .error .typeErr
                      | some (g8, r9) =>
                        match splitAtFirst ',' r9 with
                        | none => .error .typeErr
                        | some (_g9, r10) =>
                          match splitAtFirst ')' r10 with
                          | none => .error .typeErr
                          | some (g10, rest) =>
                            let mk : List (Option ℤ) → Except PErr AEvent :=
                              fun taps =>
                                .ok (.arc (parseIntJS d1) (parseIntJS d2)
                                  (parseFloatJS g3) (parseFloatJS g4) g5
                                  (parseFloatJS g6) (parseFloatJS g7)
                                  (parseIntJS g8) (g10 = strL ("true"))
                                  taps)
                            match rest with
                            | ';' :: _ => mk []
                            | '[' :: rr =>
                              match splitAtFirst ']' rr with
                              | none => .error .typeErr
                              | some (g11, rest2) =>
                                match rest2 with
                                | ';' :: _ => mk (arcTapsFromRaw g11)
                                | _ => .error .typeErr
                            | _ => .error .typeErr
        | _ => .error .typeErr
    | _ => .error .typeErr

/-- `ArcaeaEvent.fromRaw`: dispatch on the substring before the first `(`;
a line with no `(` yields `null` (`none`); an unknown prefix raises
`AffFormatError`. -/
def evFromRaw (line : List Char) : Except PErr (Option AEvent) :=
  match splitAtFirst '(' line with
  | none => .ok none
  | some (typ, _) =>
    if typ = [] then (tapFromRaw line).map some
    else if typ = strL ("hold") then (holdFromRaw line).map some
    else if typ = strL ("arc") then (arcFromRaw line).map some
    else if typ = strL ("timing") then (timingFromRaw line).map some
    else if typ = strL ("camera") then (cameraFromRaw line).map some
    else .error (.format (strL ("Unknown event type: ") ++ typ ++ strL (".")))

/-- A timing group as parsed: the primary flag and the event list. -/
structure PGroup where
  isPrimary : Bool
  events : List AEvent
  deriving DecidableEq

/-- A parsed chart: the `AudioOffset` (a JS number, `none` for `NaN`) and
the timing groups in push order (primary first). -/
structure AChart where
  offset : Option ℚ
  timingGroups : List PGroup
  deriving DecidableEq

/-- Decidable equality of parse results. -/
instance {ε α : Type} [DecidableEq ε] [DecidableEq α] : DecidableEq (Except ε α)
  | .error e, .error f =>
    if h : e = f then .isTrue (by rw [h])
    else .isFalse (fun hc => by cases hc; exact h rfl)
  | .error _, .ok _ => .isFalse (fun hc => by cases hc)
  | .ok _, .error _ => .isFalse (fun hc => by cases hc)
  | .ok a, .ok b =>
    if h : a = b then .isTrue (by rw [h])
    else .isFalse (fun hc => by cases hc; exact h rfl)

/-- The first-line regex `/AudioOffset:(-?\d*)/`: find the literal, then
capture an optional sign and a (possibly empty) digit run; the result is
`parseFloat` of the capture.  `none` means the regex did not match at all. -/
def audioOffsetParse (l : List Char) : Option (Option ℚ) :=
  match findSub (strL ("AudioOffset:")) l with
  | none => none
  | some r =>
    match r with
    | '-' :: rr => some (parseFloatJS ('-' :: rr.takeWhile Char.isDigit))
    | _ => some (parseFloatJS (r.takeWhile Char.isDigit))

/-- One body line of `Chart.fromRaw` (lines with index `≥ 2`): group
opener / group closer / event dispatch.  The state is the primary group's
events (reversed), the sub-groups' events (both levels reversed) and
whether the target is the most recent still-open sub-group. -/
def bodyStep (st : List AEvent × List (List AEvent) × Bool) (line : List Char) :
    Except PErr (List AEvent × List (List AEvent) × Bool) :=
  let (prim, subs, inSub) := st
  if (strL ("timinggroup(")).isPrefixOf line then .ok (prim, [] :: subs, true)
  else if (strL ("\x7d;")).isPrefixOf line then .ok (prim, subs, false)
  else
    match evFromRaw (trim line) with
    | .error e => .error e
    | .ok none => .ok (prim, subs, inSub)
    | .ok (some ev) =>
      if inSub then
        match subs with
        | s :: rest => .ok (prim, (ev :: s) :: rest, true)
        | [] => .ok (ev :: prim, [], true)
      else .ok (ev :: prim, subs, false)

/-- Fold `bodyStep` over the body lines, stopping at the first error (a JS
`throw` aborts the whole `forEach`). -/
def bodyLoop : List (List Char) → (List AEvent × List (List AEvent) × Bool) →
    Except PErr (List AEvent × List (List AEvent) × Bool)
  | [], st => .ok st
  | l :: ls, st =>
    match bodyStep st l with
    | .error e => .error e
    | .ok st2 => bodyLoop ls st2

/-- `Chart.fromRaw`: split on newlines, read the `AudioOffset` header, check
the literal `-` second line, then fold the body lines. -/
def chartFromRaw (raw : List Char) : Except PErr AChart :=
  match splitOn '\n' raw with
  | [] => .ok ⟨none, [⟨true, []⟩]⟩
  | l0 :: rest =>
    match audioOffsetParse (trim l0) with
    | none =>
      .error (.format (strL ("Invalid Arcaea chart format. Could't read AudioOffset.")))
    | some off =>
      match rest with
      | [] => .ok ⟨off, [⟨true, []⟩]⟩
      | l1 :: body =>
        if trim l1 = strL ("-") then
          match bodyLoop body ([], [], false) with
          | .error e => .error e
          | .ok (prim, subs, _) =>
            .ok ⟨off, ⟨true, prim.reverse⟩ ::
              (subs.reverse.map (fun es => PGroup.mk false es.reverse))⟩
        else
          .error (.format
            (strL ("Invalid Arcaea chart format. The 2nd line must be exactly \"-\".")))

/-- Digits of a natural number. -/
def natToStr (n : ℕ) : List Char := Nat.toDigits 10 n

/-- JS printing of an integer. -/
def intToStr (z : ℤ) : List Char :=
  if z < 0 then '-' :: natToStr z.natAbs else natToStr z.toNat

/-- JS printing of the rational numbers the exports at hand produce (the
integer-valued ones; a non-integer never arises in the exported fields the
claims exercise, and is rendered as an explicit fraction). -/
def ratToStr (q : ℚ) : List Char :=
  if q.den = 1 then intToStr q.num
  else intToStr q.num ++ strL ("/") ++ natToStr q.den

/-- Print a possibly-`NaN` number. -/
def numPrintQ : Option ℚ → List Char
  | none => strL ("NaN")
  | some q => ratToStr q

/-- Add the export offset (itself a possibly-`NaN` number) to a stored
possibly-`NaN` integer field. -/
def addOff (x : Option ℤ) (off : Option ℚ) : Option ℚ :=
  match x, off with
  | some z, some o => some ((z : ℚ) + o)
  | _, _ => none

/-- `Utils.numTo2f`: `num.toPrecision(2 + d)` with
`d = ceil(log10 |num| + 1e-5)` (or `1` at `0` and `±1`), which renders every
value the charts use with exactly two digits after the decimal point. -/
def numTo2f (q : ℚ) : List Char :=
  let m : ℤ := round (q * 100)
  let n : ℕ := m.natAbs
  (if m < 0 then strL ("-") else []) ++ natToStr (n / 100) ++ strL (".") ++
    (if n % 100 < 10 then '0' :: natToStr (n % 100) else natToStr (n % 100))

/-- `numTo2f` of a possibly-`NaN` number. -/
def numTo2fQ : Option ℚ → List Char
  | none => strL ("NaN")
  | some q => numTo2f q

/-- Per-event `export(offset)`. -/
def eventExport (off : Option ℚ) : AEvent → List Char
  | .tap time lane =>
    strL ("(") ++ numPrintQ (addOff time off) ++ strL (",") ++
      numPrintQ (lane.map (fun z => (z : ℚ))) ++ strL (");")
  | .hold time endTime lane =>
    strL ("hold(") ++ numPrintQ (addOff time off) ++ strL (",") ++
      numPrintQ (addOff endTime off) ++ strL (",") ++
      numPrintQ (lane.map (fun z => (z : ℚ))) ++ strL (");")
  | .arc time endTime xs xe lt ys ye color isVoid arcTaps =>
    strL ("arc(") ++ numPrintQ (addOff time off) ++ strL (",") ++
      numPrintQ (addOff endTime off) ++ strL (",") ++ numTo2fQ xs ++ strL (",") ++
      numTo2fQ xe ++ strL (",") ++ lt ++ strL (",") ++ numTo2fQ ys ++ strL (",") ++
      numTo2fQ ye ++ strL (",") ++ numPrintQ (color.map (fun z => (z : ℚ))) ++
      strL (",none,") ++ (if isVoid then strL ("true") else strL ("false")) ++
      strL (")") ++
      (if arcTaps = [] then strL (";")
       else strL ("[") ++
         (List.intersperse (strL (","))
           (arcTaps.map (fun tp => strL ("arctap(") ++ numPrintQ (addOff tp off) ++
             strL (")")))).flatten ++ strL ("];"))
  | .timing time bpm beats =>
    strL ("timing(") ++ numPrintQ (addOff time off) ++ strL (",") ++
      numTo2fQ bpm ++ strL (",") ++ numTo2fQ beats ++ strL (");")
  | .camera time tx ty tz rx ry rz ctype dur =>
    strL ("camera(") ++ numPrintQ (addOff time off) ++ strL (",") ++
      numPrintQ tx ++ strL (",") ++ numPrintQ ty ++ strL (",") ++
      numPrintQ tz ++ strL (",") ++ numPrintQ rx ++ strL (",") ++
      numPrintQ ry ++ strL (",") ++ numPrintQ rz ++ strL (",") ++ ctype ++
      strL (",") ++ numPrintQ (dur.map (fun z => (z : ℚ))) ++ strL (");")

/-- `TimingGroup.export(offset)`. -/
def groupExport (off : Option ℚ) (g : PGroup) : List Char :=
  (if g.isPrimary then [] else strL ("timinggroup()\x7b\n")) ++
    (g.events.map (fun e =>
      (if g.isPrimary then [] else strL ("    ")) ++ eventExport off e ++
        strL ("\n"))).flatten ++
    (if g.isPrimary then [] else strL ("\x7d;\n"))

/-- `Chart.export(fixOffset)`. -/
def chartExport (fixOffset : Bool) (c : AChart) : List Char :=
  strL ("AudioOffset:") ++
    (if fixOffset then strL ("0") else numPrintQ c.offset) ++ strL ("\n") ++
    strL ("-\n") ++
    (c.timingGroups.map (groupExport
      (if fixOffset then c.offset else some 0))).flatten

/-! ## `ArcManager.calculateArcRelationship` -/

/-- The fields of an `Arc` that `calculateArcRelationship` reads; `tg`
stands for the identity of the arc's timing group. -/
structure ArcR where
  time : ℚ
  endTime : ℚ
  startX : ℚ
  startY : ℚ
  endX : ℚ
  endY : ℚ
  color : ℤ
  isVoid : Bool
  tg : ℕ
  deriving DecidableEq

/-- Default arc (out-of-range index device only). -/
def defA : ArcR := ⟨0, 0, 0, 0, 0, 0, 0, false, 0⟩

/-- The geometric chaining condition:
`|a.end.x - b.start.x| < 0.1 && |a.endTime - b.time| <= 9 && a.end.y == b.start.y`. -/
def geoMatch (a b : ArcR) : Bool :=
  decide (|a.endX - b.startX| < 1 / 10) && decide (|a.endTime - b.time| ≤ 9) &&
    decide (a.endY = b.startY)

/-- The attribute condition:
`a.color == b.color && a.isVoid == b.isVoid && a.timingGroup == b.timingGroup`. -/
def attrMatch (a b : ArcR) : Bool :=
  decide (a.color = b.color) && (a.isVoid == b.isVoid) && decide (a.tg = b.tg)

/-- The mutable relationship state: per-arc group reference (`null` as
`none`, otherwise an index into the pool of shared group lists), the pool
of shared group lists (lists of arc indices), and the per-arc
`renderHead` flags. -/
structure RelSt where
  gid : List (Option ℕ)
  pools : List (List ℕ)
  rh : List Bool
  deriving DecidableEq

/-- `if(list.indexOf(x) == -1) list.push(x)`. -/
def pushMissing (l : List ℕ) (j : ℕ) : List ℕ := if j ∈ l then l else l ++ [j]

/-- One ordered pair `(a, b)` of the double `forEach` (with `a == b`
skipped by the caller): the group merge cases, the `push(b)` and the
`renderHead` clearing. -/
def pairStep (arcs : List ArcR) (st : RelSt) (i j : ℕ) : RelSt :=
  let a := arcs.getD i defA
  let b := arcs.getD j defA
  if geoMatch a b then
    let st1 :=
      if attrMatch a b then
        let st2 : RelSt :=
          match st.gid.getD i none, st.gid.getD j none with
          | none, some gb => ⟨st.gid.set i (some gb), st.pools, st.rh⟩
          | some ga, none => ⟨st.gid.set j (some ga), st.pools, st.rh⟩
          | some ga, some gb =>
            ⟨st.gid.set j (some ga),
              st.pools.set ga ((st.pools.getD gb []).foldl pushMissing
                (st.pools.getD ga [])), st.rh⟩
          | none, none =>
            ⟨(st.gid.set i (some st.pools.length)).set j (some st.pools.length),
              st.pools ++ [[i]], st.rh⟩
        match st2.gid.getD i none with
        | some g => ⟨st2.gid, st2.pools.set g (pushMissing (st2.pools.getD g []) j),
            st2.rh⟩
        | none => st2
      else st
    if a.isVoid == b.isVoid then ⟨st1.gid, st1.pools, st1.rh.set j false⟩ else st1
  else st

/-- The ordered index pairs of the double `forEach`, with `a == b`
(reference equality, i.e. same index) skipped. -/
def allPairs (n : ℕ) : List (ℕ × ℕ) :=
  ((List.range n).map (fun i =>
    ((List.range n).filter (fun j => decide (j ≠ i))).map (fun j => (i, j)))).flatten

/-- The pair phase of `calculateArcRelationship`, from the reset state
(all `arcGroup = null`, all `renderHead = true`). -/
def relRun (arcs : List ArcR) : RelSt :=
  (allPairs arcs.length).foldl (fun st p => pairStep arcs st p.1 p.2)
    ⟨List.replicate arcs.length none, [], List.replicate arcs.length true⟩

/-- Stable insertion of an arc index into a time-sorted list of arc
indices (the model of the JS comparator `(a, b) => a.time - b.time`). -/
def insertByTime (arcs : List ArcR) (x : ℕ) : List ℕ → List ℕ
  | [] => [x]
  | y :: ys =>
    if (arcs.getD x defA).time ≤ (arcs.getD y defA).time then x :: y :: ys
    else y :: insertByTime arcs x ys

/-- `list.sort((a, b) => a.time - b.time)`. -/
def sortByTime (arcs : List ArcR) (l : List ℕ) : List ℕ :=
  l.foldr (insertByTime arcs) []

/-- The final group of arc `i` after `calculateArcRelationship`: the fresh
singleton `[a]` for a still-unassigned arc, otherwise the shared pool the
arc points at, sorted ascending by time. -/
def arcGroupOf (arcs : List ArcR) (i : ℕ) : List ℕ :=
  match (relRun arcs).gid.getD i none with
  | none => sortByTime arcs [i]
  | some g => sortByTime arcs ((relRun arcs).pools.getD g [])

/-! ## Basic facts about sorted breakpoint lists -/

theorem TimeSorted.of_strict {ts : List Timing} (h : StrictTimeSorted ts) : TimeSorted ts :=
  List.Chain'.imp (fun _ _ hx => le_of_lt hx) h

theorem tTime_le_succ {ts : List Timing} (h : TimeSorted ts) {i : ℕ}
    (hi : i + 1 < ts.length) : tTime ts i ≤ tTime ts (i + 1) := by
  have hg := List.chain'_iff_get.mp h i (by omega)
  have h1 : i < ts.length := by omega
  unfold tTime
  rw [List.getD_eq_get ts defT h1, List.getD_eq_get ts defT hi]
  exact hg

theorem tTime_lt_succ {ts : List Timing} (h : StrictTimeSorted ts) {i : ℕ}
    (hi : i + 1 < ts.length) : tTime ts i < tTime ts (i + 1) := by
  have hg := List.chain'_iff_get.mp h i (by omega)
  have h1 : i < ts.length := by omega
  unfold tTime
  rw [List.getD_eq_get ts defT h1, List.getD_eq_get ts defT hi]
  exact hg

theorem tTime_mono {ts : List Timing} (h : TimeSorted ts) {i j : ℕ}
    (hij : i ≤ j) (hj : j < ts.length) : tTime ts i ≤ tTime ts j := by
  induction j with
  | zero =>
    have : i = 0 := by omega
    subst this; exact le_refl _
  | succ k ih =>
    rcases Nat.lt_or_ge i (k + 1) with hlt | hge
    · have hik : i ≤ k := by omega
      have hk : k < ts.length := by omega
      exact le_trans (ih hik hk) (tTime_le_succ h hj)
    · have : i = k + 1 := by omega
      subst this; exact le_refl _

theorem tTime_strict_mono {ts : List Timing} (h : StrictTimeSorted ts) {i j : ℕ}
    (hij : i < j) (hj : j < ts.length) : tTime ts i < tTime ts j := by
  induction j with
  | zero => omega
  | succ k ih =>
    rcases Nat.lt_or_ge i k with hlt | hge
    · have hk : k < ts.length := by omega
      exact lt_trans (ih hlt hk) (tTime_lt_succ h hj)
    · have : i = k := by omega
      subst this; exact tTime_lt_succ h hj

/-! ## Claim C4: range of `getTimingByPos` -/

theorem floorClamp_le (songLength e : ℚ) : floorClamp songLength e ≤ songLength := by
  unfold floorClamp
  split_ifs with h
  · exact le_refl _
  · exact le_trans (Int.floor_le e) (not_lt.mp h)

theorem floorClamp_int_or_len (songLength e : ℚ) :
    floorClamp songLength e = songLength ∨ ∃ k : ℤ, floorClamp songLength e = (k : ℚ) := by
  unfold floorClamp
  split_ifs with h
  · exact Or.inl rfl
  · exact Or.inr ⟨⌊e⌋, rfl⟩

theorem getTimingByPos_shape (ts : List Timing) (dr off now songLength pos : ℚ) (depth : ℕ) :
    ∃ e, getTimingByPos ts dr off now songLength pos depth = floorClamp songLength e := by
  unfold getTimingByPos
  dsimp only
  split
  · split
    · exact ⟨_, rfl⟩
    · exact ⟨_, rfl⟩
  · exact ⟨_, rfl⟩

/-- C4 (amended): `getTimingByPos` always returns an integer-valued floored
time except possibly when it returns `songLength` itself, and the result is
clamped above by `songLength`; contrary to the claim there is no clamp from
below, so the result can be negative (see the counterexample). -/
theorem claim_C4_thm (ts : List Timing) (dr off now songLength pos : ℚ) (depth : ℕ) :
    getTimingByPos ts dr off now songLength pos depth ≤ songLength ∧
      (getTimingByPos ts dr off now songLength pos depth = songLength ∨
        ∃ k : ℤ, getTimingByPos ts dr off now songLength pos depth = (k : ℚ)) := by
  obtain ⟨e, he⟩ := getTimingByPos_shape ts dr off now songLength pos depth
  rw [he]
  exact ⟨floorClamp_le _ _, floorClamp_int_or_len _ _⟩

/-- C4 counterexample: with the single breakpoint `timing(0,120,4)`,
`dropRate = 100`, audio offset `0`, current time `0` and song length
`3000`, `getTimingByPos(-1000, 0)` returns `-10`, which lies outside the
claimed interval `[0, songLength]`. -/
theorem claim_C4_counterexample :
    getTimingByPos [⟨0, 120⟩] 100 0 0 3000 (-1000) 0 = -10 ∧
      ¬ (0 ≤ getTimingByPos [⟨0, 120⟩] 100 0 0 3000 (-1000) 0) := by
  with_unfolding_all decide

/-! ## Claim C5: `getBpmByTiming` -/

theorem bpmScanAux_of_no_hit (ts : List Timing) (x : ℚ) :
    ∀ (fuel i : ℕ),
      (∀ j, i ≤ j → j + 1 < ts.length → ¬(tTime ts j < x ∧ x < tTime ts (j + 1))) →
      bpmScanAux ts x i fuel = tBpm ts (ts.length - 1) := by
  intro fuel
  induction fuel with
  | zero => intro i _; rfl
  | succ f ih =>
    intro i hno
    rw [bpmScanAux]
    split
    · rw [if_neg (hno i (le_refl i) (by assumption))]
      exact ih (i + 1) (fun j hj hlen => hno j (by omega) hlen)
    · rfl

theorem bpmScanAux_hit (ts : List Timing) (x : ℚ) (i : ℕ)
    (hlen : i + 1 < ts.length) (hit : tTime ts i < x ∧ x < tTime ts (i + 1)) :
    ∀ (fuel k : ℕ), k ≤ i → i < k + fuel →
      (∀ j, k ≤ j → j < i → ¬(tTime ts j < x ∧ x < tTime ts (j + 1))) →
      bpmScanAux ts x k fuel = tBpm ts i := by
  intro fuel
  induction fuel with
  | zero => intro k _ h2 _; omega
  | succ f ih =>
    intro k hk1 hk2 hno
    rw [bpmScanAux]
    rw [if_pos (show k + 1 < ts.length by omega)]
    rcases Nat.eq_or_lt_of_le hk1 with heq | hlt
    · subst heq; rw [if_pos hit]
    · rw [if_neg (hno k (le_refl k) hlt)]
      exact ih (k + 1) (by omega) (by omega) (fun j hj hji => hno j (by omega) hji)

/-- C5 (amended): `getBpmByTiming(t)` returns the bpm of breakpoint `i` only
when `t` lies strictly inside the open interval
`(timings[i].time, timings[i+1].time)` — both comparisons in the scan are
strict — and whenever `t` equals any breakpoint's time (in particular an
interior breakpoint's) the scan falls through and the last breakpoint's bpm
is returned instead. -/
theorem claim_C5_thm (ts : List Timing) (hs : StrictTimeSorted ts) (x : ℚ) :
    (∀ i, i + 1 < ts.length → tTime ts i < x → x < tTime ts (i + 1) →
      getBpmByTiming ts x = tBpm ts i) ∧
    (∀ j, j < ts.length → x = tTime ts j →
      getBpmByTiming ts x = tBpm ts (ts.length - 1)) := by
  constructor
  · intro i hlen h1 h2
    unfold getBpmByTiming
    refine bpmScanAux_hit ts x i hlen ⟨h1, h2⟩ ts.length 0 (by omega) (by omega) ?_
    intro j _ hji hhit
    have hle : tTime ts (j + 1) ≤ tTime ts i :=
      tTime_mono (TimeSorted.of_strict hs) (by omega) (by omega)
    exact absurd (lt_trans (lt_of_lt_of_le hhit.2 hle) h1) (lt_irrefl x)
  · intro j hj hx
    unfold getBpmByTiming
    refine bpmScanAux_of_no_hit ts x ts.length 0 ?_
    intro k _ hklen ⟨hk1, hk2⟩
    rcases Nat.lt_or_ge k j with hlt | hge
    · have : tTime ts (k + 1) ≤ tTime ts j := tTime_mono (TimeSorted.of_strict hs) (by omega) hj
      rw [hx] at hk2
      exact absurd (lt_of_lt_of_le hk2 this) (lt_irrefl _)
    · have : tTime ts j ≤ tTime ts k := tTime_mono (TimeSorted.of_strict hs) hge (by omega)
      rw [hx] at hk1
      exact absurd (lt_of_le_of_lt this hk1) (lt_irrefl _)

/-- C5 counterexample: in the group
`[timing(0,120), timing(1000,60), timing(2000,240)]` the claim places
`t = 1000` in the interval `[1000, 2000)` and predicts bpm `60`; the code's
strict scan skips both pairs and returns the last breakpoint's bpm `240`. -/
theorem claim_C5_counterexample :
    getBpmByTiming [⟨0, 120⟩, ⟨1000, 60⟩, ⟨2000, 240⟩] 1000 = 240 ∧ (240 : ℚ) ≠ 60 := by
  decide

/-- Witness for C5 at concrete inputs: `t = 1500` strictly inside
`(1000, 2000)` yields that interval's bpm, and `t = 1000` (an interior
breakpoint's exact time) yields the last bpm. -/
theorem claim_C5_witness :
    getBpmByTiming [⟨0, 120⟩, ⟨1000, 60⟩, ⟨2000, 240⟩] 1500 =
        tBpm [⟨0, 120⟩, ⟨1000, 60⟩, ⟨2000, 240⟩] 1 ∧
      getBpmByTiming [⟨0, 120⟩, ⟨1000, 60⟩, ⟨2000, 240⟩] 1000 =
        tBpm [⟨0, 120⟩, ⟨1000, 60⟩, ⟨2000, 240⟩] (3 - 1) :=
  ⟨(claim_C5_thm _ (by norm_num [List.chain'_cons]) 1500).1 1 (by decide) (by decide) (by decide),
   (claim_C5_thm _ (by norm_num [List.chain'_cons]) 1000).2 1 (by decide) (by decide)⟩

/-! ## Claim C6: the hold-note judge loop never terminates when `total = 1` -/

/-- C6 (code bug): for the hold `hold(0,250,lane)` in a group whose local
bpm at time `0` is `120`, the judge interval is `250` ms and
`total = floor(250/250) = 1`.  The mis-parenthesised guard `u ^ 1 > total`
(read by JS as `u ^ (1 > total)`, i.e. `total < 1`) does not fire, the
`while` loop starts at `n = 1`, and its break test `total == ++n` compares
`1` against `2, 3, ...` forever: `HoldNote.calculateJudgeTimings` never
terminates, modelled as `none`.  The spec instead requires the single
fallback midpoint `floor(0 + 250*0.5) = 125` whenever `total ≤ 1`. -/
theorem claim_C6_thm : holdJudgeTimings [⟨0, 120⟩] 0 250 = none := by
  with_unfolding_all decide

/-! ## Claim C7: arc judge-timing enumeration -/

theorem judgeLoop_eq (time interval endTime : ℚ) (total : ℤ) :
    ∀ (fuel n : ℕ), (n : ℤ) < total → fuel = (total - (n : ℤ)).toNat →
      judgeLoop time interval endTime total n fuel =
        ((List.range' n fuel).map (fun m : ℕ => (⌊time + (m : ℚ) * interval⌋ : ℤ))).filter
          (fun t : ℤ => decide ((t : ℚ) < endTime)) := by
  intro fuel
  induction fuel with
  | zero => intro n hn hf; omega
  | succ f ih =>
    intro n hn hf
    rw [judgeLoop.eq_def]
    dsimp only
    rw [List.range'_succ, List.map_cons, List.filter_cons]
    by_cases htot : total = (n : ℤ) + 1
    · have hf0 : f = 0 := by omega
      subst hf0
      rw [if_pos htot]
      simp only [List.range'_zero, List.map_nil, List.filter_nil, decide_eq_true_eq]
      split_ifs with h1 <;> simp
    · have hstep := ih (n + 1) (by omega) (by omega)
      rw [if_neg htot, hstep]
      simp only [decide_eq_true_eq]
      split_ifs with h1 <;> simp

/-- C7 (amended): the judge interval is `60000 / bpm / (1 if bpm ≥ 255 else 2)`
exactly as claimed, but the starting offset is the reverse of the claim's:
`u = 0` for a rendered head and `1` for a suppressed one, and the loop starts
at `n = u XOR 1` — i.e. `n = 1` when the arc's head is rendered and `n = 0`
when it is suppressed by chain-merging — and runs up to `total - 1` (not
`total`), flooring each instant and discarding any at or after `endTime`. -/
theorem claim_C7_thm (ts : List Timing) (time endTime : ℚ) (renderHead : Bool)
    (hne : endTime ≠ time) (hbpm : 0 < getBpmByTiming ts time)
    (u : ℕ) (hu : u = if renderHead then 0 else 1)
    (interval : ℚ)
    (hin : interval = 60000 / getBpmByTiming ts time /
      (if getBpmByTiming ts time ≥ 255 then 1 else 2))
    (total : ℤ) (htot : total = ⌊(endTime - time) / interval⌋)
    (hlt : ((u ^^^ 1 : ℕ) : ℤ) < total) :
    arcJudgeTimings ts time endTime false renderHead =
      ((List.range' (u ^^^ 1) (total - ((u ^^^ 1 : ℕ) : ℤ)).toNat).map
        (fun m : ℕ => (⌊time + (m : ℚ) * interval⌋ : ℤ))).filter
          (fun t : ℤ => decide ((t : ℚ) < endTime)) := by
  unfold arcJudgeTimings
  rw [if_neg (by simp), if_neg hne]
  subst hu
  dsimp only
  rw [if_neg (not_le.mpr hbpm), ← hin, ← htot, if_neg (not_le.mpr hlt)]
  exact judgeLoop_eq time interval endTime total _ _ hlt rfl

/-- Witness for C7 at `arc(0,1000,...)` with `renderHead = true` in a group
whose local bpm is 120: interval 250, `total = 4`, enumeration `n = 1..3`
giving `[250, 500, 750]`. -/
theorem claim_C7_witness :
    (1000 : ℚ) ≠ 0 ∧ 0 < getBpmByTiming [⟨0, 120⟩] 0 ∧
      arcJudgeTimings [⟨0, 120⟩] 0 1000 false true =
        ((List.range' (0 ^^^ 1) ((4 : ℤ) - ((0 ^^^ 1 : ℕ) : ℤ)).toNat).map
          (fun m : ℕ => (⌊(0 : ℚ) + (m : ℚ) * (60000 / getBpmByTiming [⟨0, 120⟩] 0 /
            (if getBpmByTiming [⟨0, 120⟩] 0 ≥ 255 then 1 else 2))⌋ : ℤ))).filter
            (fun t : ℤ => decide ((t : ℚ) < 1000)) :=
  ⟨by norm_num, by decide,
    claim_C7_thm [⟨0, 120⟩] 0 1000 true (by norm_num) (by decide) 0 rfl _ rfl 4
      (by with_unfolding_all decide) (by with_unfolding_all decide)⟩

/-- C7 counterexample: for the same concrete arc the claim's enumeration
(starting offset `0` for a rendered head, running up to `total`) is
`[0, 250, 500, 750]`, while the code produces `[250, 500, 750]`. -/
theorem claim_C7_counterexample :
    arcJudgeTimings [⟨0, 120⟩] 0 1000 false true = [250, 500, 750] ∧
      specArcJudgeTimings [⟨0, 120⟩] 0 1000 true = [0, 250, 500, 750] ∧
      specArcJudgeTimings [⟨0, 120⟩] 0 1000 true ≠ arcJudgeTimings [⟨0, 120⟩] 0 1000 false true := by
  with_unfolding_all decide

/-! ## Characterisation of the interval finder `segIdx` -/

theorem firstHitAux_no_hit (ts : List Timing) (x : ℚ) :
    ∀ (fuel i : ℕ),
      (∀ j, i ≤ j → j + 1 < ts.length → ¬(tTime ts j ≤ x ∧ x < tTime ts (j + 1))) →
      firstHitAux ts x i fuel = 0 := by
  intro fuel
  induction fuel with
  | zero => intro i _; rfl
  | succ f ih =>
    intro i hno
    rw [firstHitAux]
    split
    · rw [if_neg (hno i (le_refl i) (by assumption))]
      exact ih (i + 1) (fun j hj hlen => hno j (by omega) hlen)
    · rfl

theorem firstHitAux_hit (ts : List Timing) (x : ℚ) (i : ℕ)
    (hlen : i + 1 < ts.length) (hit : tTime ts i ≤ x ∧ x < tTime ts (i + 1)) :
    ∀ (fuel k : ℕ), k ≤ i → i < k + fuel →
      (∀ j, k ≤ j → j < i → ¬(tTime ts j ≤ x ∧ x < tTime ts (j + 1))) →
      firstHitAux ts x k fuel = i := by
  intro fuel
  induction fuel with
  | zero => intro k _ h2 _; omega
  | succ f ih =>
    intro k hk1 hk2 hno
    rw [firstHitAux]
    rw [if_pos (show k + 1 < ts.length by omega)]
    rcases Nat.eq_or_lt_of_le hk1 with heq | hlt
    · subst heq; rw [if_pos hit]
    · rw [if_neg (hno k (le_refl k) hlt)]
      exact ih (k + 1) (by omega) (by omega) (fun j hj hji => hno j (by omega) hji)

/-- Coverage: a sorted, non-empty breakpoint list whose first time is at most
`x` and whose last time is beyond `x` has a (unique) pair interval containing
`x`. -/
theorem exists_seg {ts : List Timing} (h : TimeSorted ts) (x : ℚ)
    (h0 : tTime ts 0 ≤ x) (hl : x < tTime ts (ts.length - 1)) :
    ∃ i, i + 1 < ts.length ∧ tTime ts i ≤ x ∧ x < tTime ts (i + 1) := by
  have hlen : ts.length ≠ 0 := by
    intro h0'
    rw [show ts.length - 1 = 0 by omega] at hl
    linarith
  have hP : ∃ j, x < tTime ts j ∧ j < ts.length := ⟨ts.length - 1, hl, by omega⟩
  classical
  obtain ⟨hj1, hj2⟩ := Nat.find_spec hP
  have hj0 : Nat.find hP ≠ 0 := by
    intro hz
    rw [hz] at hj1
    linarith
  have hmin := Nat.find_min hP (m := Nat.find hP - 1) (by omega)
  have hle : tTime ts (Nat.find hP - 1) ≤ x := by
    rcases not_and_or.mp hmin with hc | hc
    · exact not_lt.mp hc
    · omega
  refine ⟨Nat.find hP - 1, by omega, hle, ?_⟩
  rw [show Nat.find hP - 1 + 1 = Nat.find hP by omega]
  exact hj1

/-- In a sorted list, at most one pair interval contains `x`. -/
theorem hit_unique {ts : List Timing} (h : TimeSorted ts) {x : ℚ} {i j : ℕ}
    (hi : i + 1 < ts.length) (hhi : tTime ts i ≤ x ∧ x < tTime ts (i + 1))
    (hj : j + 1 < ts.length) (hhj : tTime ts j ≤ x ∧ x < tTime ts (j + 1)) : i = j := by
  by_contra hne
  rcases Nat.lt_or_ge i j with hlt | hge
  · have hle : tTime ts (i + 1) ≤ tTime ts j := tTime_mono h (by omega) (by omega)
    have h1 := hhj.1
    have h2 := hhi.2
    linarith
  · have hlt : j < i := by omega
    have hle : tTime ts (j + 1) ≤ tTime ts i := tTime_mono h (by omega) (by omega)
    have h1 := hhi.1
    have h2 := hhj.2
    linarith

/-- Full characterisation of `segIdx` on a sorted non-empty list: the clamp
case (`x` at/after the last breakpoint), the found case (a containing pair
interval), or the default `0` (`x` before the first breakpoint). -/
theorem segIdx_spec {ts : List Timing} (h : TimeSorted ts) (hne : ts ≠ []) (x : ℚ) :
    (segIdx ts x = ts.length - 1 ∧ tTime ts (ts.length - 1) ≤ x) ∨
    (segIdx ts x + 1 < ts.length ∧ tTime ts (segIdx ts x) ≤ x ∧
      x < tTime ts (segIdx ts x + 1)) ∨
    (segIdx ts x = 0 ∧ x < tTime ts 0) := by
  have hlen : ts.length ≠ 0 := fun h0 => hne (List.length_eq_zero.mp h0)
  unfold segIdx
  split_ifs with hcl
  · exact Or.inl ⟨rfl, hcl.2⟩
  · have hxlt : x < tTime ts (ts.length - 1) := by
      rcases not_and_or.mp hcl with hc | hc
      · exact absurd hlen hc
      · exact not_le.mp hc
    rcases lt_or_le x (tTime ts 0) with hx0 | hx0
    · refine Or.inr (Or.inr ⟨?_, hx0⟩)
      unfold firstHit
      refine firstHitAux_no_hit ts x ts.length 0 ?_
      intro j _ hjlen hb
      have hmono : tTime ts 0 ≤ tTime ts j := tTime_mono h (by omega) (by omega)
      have hb1 := hb.1
      linarith
    · obtain ⟨i, hilen, hit⟩ := exists_seg h x hx0 hxlt
      refine Or.inr (Or.inl ?_)
      have heq : firstHit ts x = i := by
        unfold firstHit
        refine firstHitAux_hit ts x i hilen hit ts.length 0 (by omega) (by omega) ?_
        intro j _ hji hhj
        exact absurd (hit_unique h (by omega) hhj hilen hit) (by omega)
      rw [heq]
      exact ⟨hilen, hit⟩

theorem segIdx_le {ts : List Timing} (h : TimeSorted ts) (hne : ts ≠ []) (x : ℚ) :
    segIdx ts x ≤ ts.length - 1 := by
  rcases segIdx_spec h hne x with ⟨he, _⟩ | ⟨hl, _, _⟩ | ⟨he, _⟩ <;> omega

theorem segIdx_lt_next {ts : List Timing} (h : TimeSorted ts) (hne : ts ≠ []) (x : ℚ)
    (hlt : segIdx ts x < ts.length - 1) : x < tTime ts (segIdx ts x + 1) := by
  rcases segIdx_spec h hne x with ⟨he, _⟩ | ⟨_, _, h2⟩ | ⟨he, h0⟩
  · omega
  · exact h2
  · have : tTime ts 0 ≤ tTime ts (segIdx ts x + 1) := tTime_mono h (by omega) (by omega)
    linarith

theorem segIdx_time_le {ts : List Timing} (h : TimeSorted ts) (hne : ts ≠ []) (x : ℚ)
    (hpos : 1 ≤ segIdx ts x) : tTime ts (segIdx ts x) ≤ x := by
  rcases segIdx_spec h hne x with ⟨he, h2⟩ | ⟨_, h1, _⟩ | ⟨he, _⟩
  · rw [he]; exact h2
  · exact h1
  · omega

theorem segIdx_time_le_of_ge_first {ts : List Timing} (h : TimeSorted ts) (hne : ts ≠ [])
    (x : ℚ) (hx : tTime ts 0 ≤ x) : tTime ts (segIdx ts x) ≤ x := by
  rcases segIdx_spec h hne x with ⟨he, h2⟩ | ⟨_, h1, _⟩ | ⟨he, h0⟩
  · rw [he]; exact h2
  · exact h1
  · rw [he]; exact hx

theorem segIdx_mono {ts : List Timing} (h : TimeSorted ts) (hne : ts ≠ []) {x y : ℚ}
    (hxy : x ≤ y) : segIdx ts x ≤ segIdx ts y := by
  have hlen : ts.length ≠ 0 := fun h0 => hne (List.length_eq_zero.mp h0)
  rcases segIdx_spec h hne y with ⟨hey, _⟩ | ⟨hly, hy1, hy2⟩ | ⟨hey, hy0⟩
  · rw [hey]; exact segIdx_le h hne x
  · rcases segIdx_spec h hne x with ⟨hex, hx2⟩ | ⟨hlx, hx1, hx2⟩ | ⟨hex, hx0⟩
    · have hm : tTime ts (segIdx ts y + 1) ≤ tTime ts (ts.length - 1) :=
        tTime_mono h (by omega) (by omega)
      linarith
    · by_contra hcon
      have hji : segIdx ts y + 1 ≤ segIdx ts x := by omega
      have hm : tTime ts (segIdx ts y + 1) ≤ tTime ts (segIdx ts x) :=
        tTime_mono h hji (by omega)
      linarith
    · omega
  · rcases segIdx_spec h hne x with ⟨hex, hx2⟩ | ⟨hlx, hx1, hx2⟩ | ⟨hex, hx0⟩
    · have hm : tTime ts 0 ≤ tTime ts (ts.length - 1) := tTime_mono h (by omega) (by omega)
      linarith
    · have hm : tTime ts 0 ≤ tTime ts (segIdx ts x) := tTime_mono h (by omega) (by omega)
      linarith
    · omega

/-! ## Positivity and the decomposition of `posCore` -/

theorem tBpm_pos {ts : List Timing} (hb : ∀ e ∈ ts, 0 < e.bpm) {i : ℕ}
    (hi : i < ts.length) : 0 < tBpm ts i := by
  unfold tBpm
  rw [List.getD_eq_get ts defT hi]
  exact hb _ (List.get_mem ts i hi)

theorem getBaseBpm_eq {ts : List Timing} (hne : ts ≠ []) : getBaseBpm ts = tBpm ts 0 := by
  cases ts with
  | nil => exact absurd rfl hne
  | cons a l => rfl

theorem getBaseBpm_pos {ts : List Timing} (hb : ∀ e ∈ ts, 0 < e.bpm) (hne : ts ≠ []) :
    0 < getBaseBpm ts := by
  rw [getBaseBpm_eq hne]
  exact tBpm_pos hb (by cases ts with
    | nil => exact absurd rfl hne
    | cons a l => simp)

theorem segRate_pos {ts : List Timing} (hb : ∀ e ∈ ts, 0 < e.bpm) (hne : ts ≠ [])
    {dr : ℚ} (hdr : 0 < dr) {i : ℕ} (hi : i < ts.length) : 0 < segRate ts dr i :=
  mul_pos (div_pos (tBpm_pos hb hi) (getBaseBpm_pos hb hne)) hdr

theorem iSum_empty (ts : List Timing) (dr : ℚ) {k b : ℕ} (hkb : b ≤ k) :
    iSum ts dr k b = 0 := by
  unfold iSum
  rw [show b - k = 0 by omega]
  rfl

theorem iSum_split (ts : List Timing) (dr : ℚ) {k m b : ℕ} (h1 : k ≤ m) (h2 : m ≤ b) :
    iSum ts dr k b = iSum ts dr k m + iSum ts dr m b := by
  unfold iSum
  rw [show b - k = (b - m) + (m - k) by omega, ← List.range'_append_1,
    show k + (m - k) = m by omega, List.map_append, List.sum_append]

theorem iSum_single (ts : List Timing) (dr : ℚ) (k : ℕ) :
    iSum ts dr k (k + 1) = (tTime ts (k + 1) - tTime ts k) * segRate ts dr k := by
  unfold iSum
  rw [show k + 1 - k = 1 by omega]
  simp [List.range']

theorem iSum_nonneg {ts : List Timing} (h : TimeSorted ts) (hb : ∀ e ∈ ts, 0 < e.bpm)
    (hne : ts ≠ []) {dr : ℚ} (hdr : 0 < dr) {k b : ℕ} (hble : b ≤ ts.length - 1) :
    0 ≤ iSum ts dr k b := by
  unfold iSum
  refine List.sum_nonneg ?_
  intro q hq
  obtain ⟨j, hj, rfl⟩ := List.mem_map.mp hq
  have hjb : k ≤ j ∧ j < k + (b - k) := List.mem_range'_1.mp hj
  have hjlen : j + 1 < ts.length := by
    have : ts.length ≠ 0 := fun h0 => hne (List.length_eq_zero.mp h0)
    omega
  have ht : tTime ts j ≤ tTime ts (j + 1) := tTime_le_succ h hjlen
  have hr : 0 < segRate ts dr j := segRate_pos hb hne hdr (by omega)
  nlinarith

theorem sumIdx_decomp (f : ℕ → ℚ) {a b : ℕ} (hab : a < b) :
    sumIdx f a b = f a + ((List.range' (a + 1) (b - (a + 1))).map f).sum + f b := by
  unfold sumIdx
  rw [show b + 1 - a = ((b - (a + 1)) + 1) + 1 by omega, List.range'_succ,
    List.range'_concat, show a + 1 + 1 * (b - (a + 1)) = b by omega, List.map_cons,
    List.map_append, List.sum_cons, List.sum_append]
  simp [add_assoc]

/-- The head / interior / tail decomposition of `posCore` when the two
endpoints sit in different breakpoint intervals. -/
theorem posCore_decomp {ts : List Timing} (h : TimeSorted ts) (hne : ts ≠ []) (dr : ℚ)
    {c t : ℚ} (hct : c ≤ t) (hab : segIdx ts c ≠ segIdx ts t) :
    posCore ts dr c t =
      (tTime ts (segIdx ts c + 1) - c) * segRate ts dr (segIdx ts c) +
        iSum ts dr (segIdx ts c + 1) (segIdx ts t) +
        (t - tTime ts (segIdx ts t)) * segRate ts dr (segIdx ts t) := by
  have hak : segIdx ts c < segIdx ts t :=
    lt_of_le_of_ne (segIdx_mono h hne hct) hab
  unfold posCore
  rw [if_neg hab, sumIdx_decomp _ hak]
  have hmid : ((List.range' (segIdx ts c + 1) (segIdx ts t - (segIdx ts c + 1))).map
      (posSegTerm ts (getBaseBpm ts) dr c t (segIdx ts c) (segIdx ts t))).sum =
      iSum ts dr (segIdx ts c + 1) (segIdx ts t) := by
    unfold iSum
    congr 1
    refine List.map_congr_left ?_
    intro j hj
    have hjb := List.mem_range'_1.mp hj
    unfold posSegTerm segRate
    rw [if_neg (by omega), if_neg (by omega)]
    ring
  rw [hmid]
  unfold posSegTerm segRate
  rw [if_pos rfl, if_neg (by omega), if_pos rfl]
  ring

/-- Same-interval form of `posCore`. -/
theorem posCore_same {ts : List Timing} (dr : ℚ) {c t : ℚ}
    (hab : segIdx ts c = segIdx ts t) :
    posCore ts dr c t = (t - c) * segRate ts dr (segIdx ts c) := by
  unfold posCore
  rw [if_pos hab]
  unfold segRate
  ring

/-! ## Monotonicity of `posCore` (all-positive bpm) -/

theorem posCore_self (ts : List Timing) (dr : ℚ) (c : ℚ) : posCore ts dr c c = 0 := by
  rw [posCore_same dr rfl]
  ring

theorem posCore_pos {ts : List Timing} (h : TimeSorted ts) (hne : ts ≠ [])
    (hb : ∀ e ∈ ts, 0 < e.bpm) {dr : ℚ} (hdr : 0 < dr) {c t : ℚ} (hct : c < t) :
    0 < posCore ts dr c t := by
  have hlen : ts.length ≠ 0 := fun h0 => hne (List.length_eq_zero.mp h0)
  by_cases hab : segIdx ts c = segIdx ts t
  · rw [posCore_same dr hab]
    have hi : segIdx ts c < ts.length := by
      have := segIdx_le h hne c; omega
    have hr := segRate_pos hb hne hdr hi
    nlinarith
  · rw [posCore_decomp h hne dr (le_of_lt hct) hab]
    have hak : segIdx ts c < segIdx ts t :=
      lt_of_le_of_ne (segIdx_mono h hne hct.le) hab
    have hk_le : segIdx ts t ≤ ts.length - 1 := segIdx_le h hne t
    have ha_lt : segIdx ts c < ts.length - 1 := by omega
    have hcx : c < tTime ts (segIdx ts c + 1) := segIdx_lt_next h hne c ha_lt
    have hra := segRate_pos hb hne hdr (show segIdx ts c < ts.length by omega)
    have hrk := segRate_pos hb hne hdr (show segIdx ts t < ts.length by omega)
    have hmid : 0 ≤ iSum ts dr (segIdx ts c + 1) (segIdx ts t) :=
      iSum_nonneg h hb hne hdr hk_le
    have htk : tTime ts (segIdx ts t) ≤ t := segIdx_time_le h hne t (by omega)
    nlinarith

theorem posCore_lt_posCore_right {ts : List Timing} (h : TimeSorted ts) (hne : ts ≠ [])
    (hb : ∀ e ∈ ts, 0 < e.bpm) {dr : ℚ} (hdr : 0 < dr) {c t1 t2 : ℚ}
    (h1 : c ≤ t1) (h12 : t1 < t2) :
    posCore ts dr c t1 < posCore ts dr c t2 := by
  have hlen : ts.length ≠ 0 := fun h0 => hne (List.length_eq_zero.mp h0)
  have hak1 : segIdx ts c ≤ segIdx ts t1 := segIdx_mono h hne h1
  have hk12 : segIdx ts t1 ≤ segIdx ts t2 := segIdx_mono h hne (le_of_lt h12)
  have hk2le : segIdx ts t2 ≤ ts.length - 1 := segIdx_le h hne t2
  rcases eq_or_lt_of_le hk12 with heq | hklt
  · by_cases hab : segIdx ts c = segIdx ts t1
    · rw [posCore_same dr hab, posCore_same dr (by omega)]
      have hr := segRate_pos hb hne hdr (show segIdx ts c < ts.length by omega)
      nlinarith
    · rw [posCore_decomp h hne dr h1 hab,
        posCore_decomp h hne dr (le_trans h1 h12.le) (by omega)]
      rw [← heq]
      have hr := segRate_pos hb hne hdr (show segIdx ts t1 < ts.length by omega)
      have hkey : 0 < (t2 - t1) * segRate ts dr (segIdx ts t1) :=
        mul_pos (by linarith) hr
      nlinarith
  · have hk1lt : segIdx ts t1 < ts.length - 1 := by omega
    have ht1lt : t1 < tTime ts (segIdx ts t1 + 1) := segIdx_lt_next h hne t1 hk1lt
    have ht2ge : tTime ts (segIdx ts t2) ≤ t2 := segIdx_time_le h hne t2 (by omega)
    have hr1 := segRate_pos hb hne hdr (show segIdx ts t1 < ts.length by omega)
    have hr2 := segRate_pos hb hne hdr (show segIdx ts t2 < ts.length by omega)
    rcases eq_or_lt_of_le hak1 with haeq | halt
    · rw [posCore_same dr haeq, posCore_decomp h hne dr (le_trans h1 h12.le) (by omega)]
      rw [haeq]
      have hmid : 0 ≤ iSum ts dr (segIdx ts t1 + 1) (segIdx ts t2) :=
        iSum_nonneg h hb hne hdr hk2le
      have hhead : (t1 - c) * segRate ts dr (segIdx ts t1) <
          (tTime ts (segIdx ts t1 + 1) - c) * segRate ts dr (segIdx ts t1) := by
        nlinarith
      have htail : 0 ≤ (t2 - tTime ts (segIdx ts t2)) * segRate ts dr (segIdx ts t2) := by
        nlinarith
      linarith
    · rw [posCore_decomp h hne dr h1 (by omega),
        posCore_decomp h hne dr (le_trans h1 h12.le) (by omega)]
      have hs1 : iSum ts dr (segIdx ts c + 1) (segIdx ts t2) =
          iSum ts dr (segIdx ts c + 1) (segIdx ts t1) +
            iSum ts dr (segIdx ts t1) (segIdx ts t2) :=
        iSum_split ts dr (by omega) (by omega)
      have hs2 : iSum ts dr (segIdx ts t1) (segIdx ts t2) =
          iSum ts dr (segIdx ts t1) (segIdx ts t1 + 1) +
            iSum ts dr (segIdx ts t1 + 1) (segIdx ts t2) :=
        iSum_split ts dr (by omega) (by omega)
      have hs3 := iSum_single ts dr (segIdx ts t1)
      have hmid2 : 0 ≤ iSum ts dr (segIdx ts t1 + 1) (segIdx ts t2) :=
        iSum_nonneg h hb hne hdr hk2le
      have htail2 : 0 ≤ (t2 - tTime ts (segIdx ts t2)) * segRate ts dr (segIdx ts t2) := by
        nlinarith
      have htail1 : (t1 - tTime ts (segIdx ts t1)) * segRate ts dr (segIdx ts t1) <
          (tTime ts (segIdx ts t1 + 1) - tTime ts (segIdx ts t1)) *
            segRate ts dr (segIdx ts t1) := by
        nlinarith
      linarith

theorem posCore_lt_posCore_left {ts : List Timing} (h : TimeSorted ts) (hne : ts ≠ [])
    (hb : ∀ e ∈ ts, 0 < e.bpm) {dr : ℚ} (hdr : 0 < dr) {t1 t2 s : ℚ}
    (h12 : t1 < t2) (h2s : t2 ≤ s) :
    posCore ts dr t2 s < posCore ts dr t1 s := by
  have hlen : ts.length ≠ 0 := fun h0 => hne (List.length_eq_zero.mp h0)
  have ha12 : segIdx ts t1 ≤ segIdx ts t2 := segIdx_mono h hne (le_of_lt h12)
  have ha2b : segIdx ts t2 ≤ segIdx ts s := segIdx_mono h hne h2s
  have hble : segIdx ts s ≤ ts.length - 1 := segIdx_le h hne s
  rcases eq_or_lt_of_le ha12 with heq | halt
  · by_cases hab : segIdx ts t2 = segIdx ts s
    · rw [posCore_same dr hab, posCore_same dr (by omega)]
      have hr := segRate_pos hb hne hdr (show segIdx ts t2 < ts.length by omega)
      rw [show segIdx ts t1 = segIdx ts t2 from heq]
      nlinarith
    · rw [posCore_decomp h hne dr h2s hab,
        posCore_decomp h hne dr (le_trans h12.le h2s) (by omega)]
      rw [show segIdx ts t1 = segIdx ts t2 from heq]
      have hr := segRate_pos hb hne hdr (show segIdx ts t2 < ts.length by omega)
      nlinarith
  · have ha1lt : segIdx ts t1 < ts.length - 1 := by omega
    have ht1lt : t1 < tTime ts (segIdx ts t1 + 1) := segIdx_lt_next h hne t1 ha1lt
    have hr1 := segRate_pos hb hne hdr (show segIdx ts t1 < ts.length by omega)
    have hrb := segRate_pos hb hne hdr (show segIdx ts s < ts.length by omega)
    have ht2ge : tTime ts (segIdx ts t2) ≤ t2 := segIdx_time_le h hne t2 (by omega)
    have hhead1 : 0 < (tTime ts (segIdx ts t1 + 1) - t1) * segRate ts dr (segIdx ts t1) := by
      nlinarith
    by_cases hab2 : segIdx ts t2 = segIdx ts s
    · rw [posCore_same dr hab2, posCore_decomp h hne dr (le_trans h12.le h2s) (by omega)]
      have hmid : 0 ≤ iSum ts dr (segIdx ts t1 + 1) (segIdx ts s) :=
        iSum_nonneg h hb hne hdr hble
      have hr2 := segRate_pos hb hne hdr (show segIdx ts t2 < ts.length by omega)
      have hkey : (s - t2) * segRate ts dr (segIdx ts t2) ≤
          (s - tTime ts (segIdx ts s)) * segRate ts dr (segIdx ts s) := by
        rw [← hab2]
        nlinarith
      linarith
    · rw [posCore_decomp h hne dr h2s hab2,
        posCore_decomp h hne dr (le_trans h12.le h2s) (by omega)]
      have hs1 : iSum ts dr (segIdx ts t1 + 1) (segIdx ts s) =
          iSum ts dr (segIdx ts t1 + 1) (segIdx ts t2) +
            iSum ts dr (segIdx ts t2) (segIdx ts s) :=
        iSum_split ts dr (by omega) (by omega)
      have hs2 : iSum ts dr (segIdx ts t2) (segIdx ts s) =
          iSum ts dr (segIdx ts t2) (segIdx ts t2 + 1) +
            iSum ts dr (segIdx ts t2 + 1) (segIdx ts s) :=
        iSum_split ts dr (by omega) (by omega)
      have hs3 := iSum_single ts dr (segIdx ts t2)
      have hmid1 : 0 ≤ iSum ts dr (segIdx ts t1 + 1) (segIdx ts t2) :=
        iSum_nonneg h hb hne hdr (by omega)
      have hr2 := segRate_pos hb hne hdr (show segIdx ts t2 < ts.length by omega)
      have hhead2 : (tTime ts (segIdx ts t2 + 1) - t2) * segRate ts dr (segIdx ts t2) ≤
          (tTime ts (segIdx ts t2 + 1) - tTime ts (segIdx ts t2)) *
            segRate ts dr (segIdx ts t2) := by
        nlinarith
      linarith

/-- C2: with all-positive bpm breakpoints (and the positive ambient
drop-rate), `getPosByTimingWithStart(s, ·)` is strictly increasing in the
target time, for every start `s` and every audio offset. -/
theorem claim_C2_thm (ts : List Timing) (h : TimeSorted ts) (hne : ts ≠ [])
    (hb : ∀ e ∈ ts, 0 < e.bpm) (dr off : ℚ) (hdr : 0 < dr) (s t1 t2 : ℚ)
    (h12 : t1 < t2) :
    getPosByTimingWithStart ts dr off s t1 < getPosByTimingWithStart ts dr off s t2 := by
  unfold getPosByTimingWithStart
  dsimp only
  by_cases hst2 : s > t2
  · have hst1 : s > t1 := lt_trans h12 hst2
    simp only [if_pos hst1, if_pos hst2]
    have := posCore_lt_posCore_left h hne hb hdr
      (sub_lt_sub_right h12 off) (sub_le_sub_right (le_of_lt hst2) off)
    linarith
  · by_cases hst1 : s > t1
    · simp only [if_pos hst1, if_neg hst2]
      have hp1 : 0 < posCore ts dr (t1 - off) (s - off) :=
        posCore_pos h hne hb hdr (sub_lt_sub_right hst1 off)
      have hp2 : 0 ≤ posCore ts dr (s - off) (t2 - off) := by
        rcases eq_or_lt_of_le (not_lt.mp hst2) with heq | hlt
        · rw [heq]
          rw [posCore_self]
        · exact le_of_lt (posCore_pos h hne hb hdr (sub_lt_sub_right hlt off))
      linarith
    · simp only [if_neg hst1, if_neg hst2]
      exact posCore_lt_posCore_right h hne hb hdr
        (sub_le_sub_right (not_lt.mp hst1) off) (sub_lt_sub_right h12 off)

/-- Witness for C2 at the concrete group `[timing(0,120), timing(1000,60)]`,
`dropRate = 100`, offset `0`, start `0`, `t1 = 500 < t2 = 1500`. -/
theorem claim_C2_witness :
    (0 : ℚ) < 100 ∧ (500 : ℚ) < 1500 ∧
      getPosByTimingWithStart [⟨0, 120⟩, ⟨1000, 60⟩] 100 0 0 500 <
        getPosByTimingWithStart [⟨0, 120⟩, ⟨1000, 60⟩] 100 0 0 1500 :=
  ⟨by norm_num, by norm_num,
    claim_C2_thm [⟨0, 120⟩, ⟨1000, 60⟩] (by norm_num [List.chain'_cons]) (by simp)
      (by decide) 100 0 (by norm_num) 0 500 1500 (by norm_num)⟩

/-! ## Claim C3: the zero-bpm freeze fixture -/

theorem seg3 (s : ℚ) :
    segIdx ([⟨0, 120⟩, ⟨1000, 0⟩, ⟨2000, 120⟩] : List Timing) s =
      if 2000 ≤ s then 2 else if 1000 ≤ s then 1 else 0 := by
  have hsort : TimeSorted ([⟨0, 120⟩, ⟨1000, 0⟩, ⟨2000, 120⟩] : List Timing) := by
    norm_num [List.chain'_cons]
  have hne : ([⟨0, 120⟩, ⟨1000, 0⟩, ⟨2000, 120⟩] : List Timing) ≠ [] := by simp
  have hlen3 : ([⟨0, 120⟩, ⟨1000, 0⟩, ⟨2000, 120⟩] : List Timing).length = 3 := rfl
  have ht0 : tTime ([⟨0, 120⟩, ⟨1000, 0⟩, ⟨2000, 120⟩] : List Timing) 0 = 0 := rfl
  have ht1 : tTime ([⟨0, 120⟩, ⟨1000, 0⟩, ⟨2000, 120⟩] : List Timing) 1 = 1000 := rfl
  have ht2 : tTime ([⟨0, 120⟩, ⟨1000, 0⟩, ⟨2000, 120⟩] : List Timing) 2 = 2000 := rfl
  split_ifs with h1 h2
  · rcases segIdx_spec hsort hne s with ⟨he, _⟩ | ⟨hl, _, hx2⟩ | ⟨he, h0⟩
    · rw [he, hlen3]
    · exfalso
      rw [hlen3] at hl
      have hmono : tTime ([⟨0, 120⟩, ⟨1000, 0⟩, ⟨2000, 120⟩] : List Timing)
          (segIdx ([⟨0, 120⟩, ⟨1000, 0⟩, ⟨2000, 120⟩] : List Timing) s + 1) ≤
          tTime ([⟨0, 120⟩, ⟨1000, 0⟩, ⟨2000, 120⟩] : List Timing) 2 :=
        tTime_mono hsort (by omega) (by omega)
      rw [ht2] at hmono
      linarith
    · rw [ht0] at h0
      linarith
  · rcases segIdx_spec hsort hne s with ⟨_, hge⟩ | ⟨hl, hx1, hx2⟩ | ⟨he, h0⟩
    · exfalso
      rw [hlen3] at hge
      norm_num at hge
      rw [ht2] at hge
      linarith
    · rw [hlen3] at hl
      have hcase : segIdx ([⟨0, 120⟩, ⟨1000, 0⟩, ⟨2000, 120⟩] : List Timing) s = 0 ∨
          segIdx ([⟨0, 120⟩, ⟨1000, 0⟩, ⟨2000, 120⟩] : List Timing) s = 1 := by omega
      rcases hcase with hc | hc
      · exfalso
        rw [hc] at hx2
        rw [show (0 : ℕ) + 1 = 1 from rfl, ht1] at hx2
        linarith
      · exact hc
    · exfalso
      rw [ht0] at h0
      linarith
  · rcases segIdx_spec hsort hne s with ⟨_, hge⟩ | ⟨hl, hx1, hx2⟩ | ⟨he, _⟩
    · exfalso
      rw [hlen3] at hge
      norm_num at hge
      rw [ht2] at hge
      linarith
    · rw [hlen3] at hl
      have hcase : segIdx ([⟨0, 120⟩, ⟨1000, 0⟩, ⟨2000, 120⟩] : List Timing) s = 0 ∨
          segIdx ([⟨0, 120⟩, ⟨1000, 0⟩, ⟨2000, 120⟩] : List Timing) s = 1 := by omega
      rcases hcase with hc | hc
      · exact hc
      · exfalso
        rw [hc] at hx1
        rw [ht1] at hx1
        linarith
    · exact he

/-- C3: in the fixture group `[timing(0,120,4), timing(1000,0,4),
timing(2000,120,4)]` the zero-bpm breakpoint contributes zero position delta
across its whole span: from any fixed start `s` (and any drop rate, offset
`0`), the position of time `1500` equals the position of time `1000`. -/
theorem claim_C3_thm (s dr : ℚ) :
    getPosByTimingWithStart ([⟨0, 120⟩, ⟨1000, 0⟩, ⟨2000, 120⟩] : List Timing) dr 0 s 1500 =
      getPosByTimingWithStart ([⟨0, 120⟩, ⟨1000, 0⟩, ⟨2000, 120⟩] : List Timing) dr 0 s 1000 := by
  have hsort : TimeSorted ([⟨0, 120⟩, ⟨1000, 0⟩, ⟨2000, 120⟩] : List Timing) := by
    norm_num [List.chain'_cons]
  have hne : ([⟨0, 120⟩, ⟨1000, 0⟩, ⟨2000, 120⟩] : List Timing) ≠ [] := by simp
  have hr1 : segRate ([⟨0, 120⟩, ⟨1000, 0⟩, ⟨2000, 120⟩] : List Timing) dr 1 = 0 := by
    unfold segRate
    rw [show tBpm ([⟨0, 120⟩, ⟨1000, 0⟩, ⟨2000, 120⟩] : List Timing) 1 = 0 from rfl]
    simp
  have h15 : segIdx ([⟨0, 120⟩, ⟨1000, 0⟩, ⟨2000, 120⟩] : List Timing) 1500 = 1 := by
    rw [seg3]; norm_num
  have h10 : segIdx ([⟨0, 120⟩, ⟨1000, 0⟩, ⟨2000, 120⟩] : List Timing) 1000 = 1 := by
    rw [seg3]; norm_num
  unfold getPosByTimingWithStart
  dsimp only
  simp only [sub_zero]
  by_cases hA : s > (1500 : ℚ)
  · have hB : s > (1000 : ℚ) := by linarith
    simp only [if_pos hA, if_pos hB]
    congr 1
    by_cases hC : (2000 : ℚ) ≤ s
    · have hss : segIdx ([⟨0, 120⟩, ⟨1000, 0⟩, ⟨2000, 120⟩] : List Timing) s = 2 := by
        rw [seg3, if_pos hC]
      rw [posCore_decomp hsort hne dr (by linarith) (by rw [h15, hss]; omega),
        posCore_decomp hsort hne dr (by linarith) (by rw [h10, hss]; omega)]
      rw [h15, h10, hss, hr1]
      ring
    · have hss : segIdx ([⟨0, 120⟩, ⟨1000, 0⟩, ⟨2000, 120⟩] : List Timing) s = 1 := by
        rw [seg3, if_neg hC, if_pos (by linarith : (1000 : ℚ) ≤ s)]
      rw [posCore_same dr (by rw [h15, hss]), posCore_same dr (by rw [h10, hss])]
      rw [h15, h10, hr1]
      ring
  · by_cases hB : s > (1000 : ℚ)
    · simp only [if_neg hA, if_pos hB]
      have hss : segIdx ([⟨0, 120⟩, ⟨1000, 0⟩, ⟨2000, 120⟩] : List Timing) s = 1 := by
        rw [seg3, if_neg (by linarith : ¬ (2000 : ℚ) ≤ s),
          if_pos (by linarith : (1000 : ℚ) ≤ s)]
      rw [posCore_same dr (by rw [hss, h15]), posCore_same dr (by rw [h10, hss])]
      rw [hss, h10, hr1]
      ring
    · simp only [if_neg hA, if_neg hB]
      by_cases hD : s = (1000 : ℚ)
      · subst hD
        rw [posCore_same dr (by rw [h10, h15]), posCore_same dr rfl]
        rw [h10, hr1]
        ring
      · have hsl : s < 1000 := lt_of_le_of_ne (not_lt.mp hB) hD
        have hss : segIdx ([⟨0, 120⟩, ⟨1000, 0⟩, ⟨2000, 120⟩] : List Timing) s = 0 := by
          rw [seg3, if_neg (by linarith : ¬ (2000 : ℚ) ≤ s),
            if_neg (by linarith : ¬ (1000 : ℚ) ≤ s)]
        rw [posCore_decomp hsort hne dr (by linarith) (by rw [hss, h15]; omega),
          posCore_decomp hsort hne dr (by linarith) (by rw [hss, h10]; omega)]
        rw [hss, h15, h10, hr1]
        ring

/-! ## Claim C1: inverse consistency of the conversion pair -/

/-- C1 counterexample: equal-bpm group
`[timing(0,2), timing(4,2), timing(8,2)]`, `dropRate = 1`, offset `0`,
current time `0`, song length `12`.  The target `t = 8` (reachable:
`8 < 12`) has relative position `8`, which lands exactly on the accumulated
boundary of the final segment; the strict interior/final bracket tests both
miss it and `getTimingByPos` falls through to the song length `12`, an
error of `4` ms. -/
theorem claim_C1_counterexample :
    getPosByTimingWithStart [⟨0, 2⟩, ⟨4, 2⟩, ⟨8, 2⟩] 1 0 0 8 = 8 ∧
      getTimingByPos [⟨0, 2⟩, ⟨4, 2⟩, ⟨8, 2⟩] 1 0 0 12 8 0 = 12 ∧
      ¬ |getTimingByPos [⟨0, 2⟩, ⟨4, 2⟩, ⟨8, 2⟩] 1 0 0 12
          (getPosByTimingWithStart [⟨0, 2⟩, ⟨4, 2⟩, ⟨8, 2⟩] 1 0 0 8) 0
          - 8| < 1 := by
  have h1 : getPosByTimingWithStart [⟨0, 2⟩, ⟨4, 2⟩, ⟨8, 2⟩] 1 0 0 8 = 8 := by
    with_unfolding_all decide
  have h2 : getTimingByPos [⟨0, 2⟩, ⟨4, 2⟩, ⟨8, 2⟩] 1 0 0 12 8 0 = 12 := by
    with_unfolding_all decide
  refine ⟨h1, h2, ?_⟩
  rw [h1, h2]
  norm_num

theorem abs_floor_sub_lt_one (q : ℚ) : |(⌊q⌋ : ℚ) - q| < 1 := by
  rw [abs_lt]
  constructor
  · have := Int.lt_floor_add_one q
    linarith
  · have := Int.floor_le q
    linarith

theorem floorClamp_of_le {songLength e : ℚ} (h : e ≤ songLength) :
    floorClamp songLength e = (⌊e⌋ : ℚ) := by
  unfold floorClamp
  rw [if_neg (not_lt.mpr h)]

/-- The forward (non-reversed) form of `getPosByTimingWithStart`. -/
theorem getPos_forward (ts : List Timing) (dr off : ℚ) {start timing : ℚ}
    (hle : start ≤ timing) :
    getPosByTimingWithStart ts dr off start timing =
      posCore ts dr (start - off) (timing - off) := by
  unfold getPosByTimingWithStart
  dsimp only
  simp only [if_neg (not_lt.mpr hle)]

theorem walkIdxs_cons {s endI : ℤ} (h : s ≤ endI) :
    walkIdxs s endI = s :: walkIdxs (s + 1) endI := by
  unfold walkIdxs
  rw [show (endI + 1 - s).toNat = (endI + 1 - (s + 1)).toNat + 1 by omega]
  rw [walkIdxsAux, if_pos h]

theorem walkIdxs_nil {s endI : ℤ} (h : endI < s) : walkIdxs s endI = [] := by
  unfold walkIdxs
  rw [show (endI + 1 - s).toNat = 0 by omega]
  rfl

theorem lastHitAux_no_hit (ts : List Timing) (off now : ℚ) :
    ∀ (fuel i acc : ℕ),
      (∀ j, i ≤ j → j + 1 < ts.length →
        ¬(tTime ts j + off ≤ now ∧ now < tTime ts (j + 1) + off)) →
      lastHitAux ts off now i acc fuel = acc := by
  intro fuel
  induction fuel with
  | zero => intro i acc _; rfl
  | succ f ih =>
    intro i acc hno
    rw [lastHitAux]
    split
    · rw [if_neg (hno i (le_refl i) (by assumption))]
      exact ih (i + 1) acc (fun j hj hlen => hno j (by omega) hlen)
    · rfl

theorem lastHitAux_hit (ts : List Timing) (off now : ℚ) (i : ℕ)
    (hlen : i + 1 < ts.length)
    (hit : tTime ts i + off ≤ now ∧ now < tTime ts (i + 1) + off)
    (hafter : ∀ j, i < j → j + 1 < ts.length →
      ¬(tTime ts j + off ≤ now ∧ now < tTime ts (j + 1) + off)) :
    ∀ (fuel k acc : ℕ), k ≤ i → i < k + fuel →
      lastHitAux ts off now k acc fuel = i := by
  intro fuel
  induction fuel with
  | zero => intro k acc _ h2; omega
  | succ f ih =>
    intro k acc hk1 hk2
    rw [lastHitAux]
    rw [if_pos (show k + 1 < ts.length by omega)]
    rcases Nat.eq_or_lt_of_le hk1 with heq | hlt
    · subst heq
      rw [if_pos hit]
      exact lastHitAux_no_hit ts off now f (k + 1) k (fun j hj hl => hafter j (by omega) hl)
    · exact ih (k + 1) _ (by omega) (by omega)

/-- On a sorted list the last-match start scan of `getTimingByPos` locates
the same interval index as `getPosByTimingWithStart`'s first-match scan
(there is at most one containing pair interval). -/
theorem gtbpStart_eq_segIdx {ts : List Timing} (h : TimeSorted ts) (hne : ts ≠ [])
    (off now : ℚ) : gtbpStart ts off now = segIdx ts (now - off) := by
  have hlen : ts.length ≠ 0 := fun h0 => hne (List.length_eq_zero.mp h0)
  unfold gtbpStart
  dsimp only
  rcases segIdx_spec h hne (now - off) with ⟨he, hge⟩ | ⟨hl, hx1, hx2⟩ | ⟨he, h0⟩
  · rw [if_pos ⟨hlen, by linarith⟩, he]
  · have hup : tTime ts (segIdx ts (now - off) + 1) ≤ tTime ts (ts.length - 1) :=
      tTime_mono h (by omega) (by omega)
    rw [if_neg (by rintro ⟨-, hc⟩; linarith)]
    refine lastHitAux_hit ts off now (segIdx ts (now - off)) hl
      ⟨by linarith, by linarith⟩ ?_ ts.length 0 0 (by omega) (by omega)
    intro j hj hjlen hb
    have hmo : tTime ts (segIdx ts (now - off) + 1) ≤ tTime ts j := tTime_mono h (by omega) (by omega)
    have hb1 := hb.1
    linarith
  · have h01 : tTime ts 0 ≤ tTime ts (ts.length - 1) := tTime_mono h (by omega) (by omega)
    rw [if_neg (by rintro ⟨-, hc⟩; linarith), he]
    refine lastHitAux_no_hit ts off now ts.length 0 0 ?_
    intro j hj hjlen hb
    have hmo : tTime ts 0 ≤ tTime ts j := tTime_mono h (by omega) (by omega)
    have hb1 := hb.1
    linarith

/-- Reach lemma for the walk of `getTimingByPos` at depth `0`: if `F`
tracks the accumulated position along the index range (each step adds the
segment's `wDelta`), the bracket test fails at every index of `[j, k)` and
succeeds at `k ≤ endI`, then the walk started at `j` stops at `k` with
accumulated position `F k`. -/
theorem walkGo_reach (ts : List Timing) (off now songLength base dr pos : ℚ)
    (start endI : ℤ) (F : ℤ → ℚ) (k : ℤ) (hk : k ≤ endI)
    (hsucc : brTest (decide (k = start)) (F k)
      (wDelta ts off now songLength base dr start endI k) pos = true) :
    ∀ (n : ℕ) (j : ℤ), (k - j).toNat = n → j ≤ k →
      (∀ i : ℤ, j ≤ i → i < k →
        F (i + 1) = F i + wDelta ts off now songLength base dr start endI i) →
      (∀ i : ℤ, j ≤ i → i < k →
        brTest (decide (i = start)) (F i)
          (wDelta ts off now songLength base dr start endI i) pos = false) →
      walkGo ts off now songLength base dr pos start endI (walkIdxs j endI) (F j) 0 =
        (some k, F k) := by
  intro n
  induction n with
  | zero =>
    intro j hn hj _ _
    have hjk : j = k := by omega
    subst hjk
    rw [walkIdxs_cons (by omega)]
    rw [walkGo]
    rw [hsucc]
    simp
  | succ m ih =>
    intro j hn hj hrec hfail
    have hjk : j < k := by omega
    rw [walkIdxs_cons (by omega)]
    rw [walkGo]
    rw [hfail j le_rfl hjk]
    rw [if_neg (by simp)]
    rw [← hrec j le_rfl hjk]
    exact ih (j + 1) (by omega) (by omega)
      (fun i hi1 hi2 => hrec i (by omega) hi2)
      (fun i hi1 hi2 => hfail i (by omega) hi2)

/-- The head form of `wDelta` at the start index. -/
theorem wDelta_head (ts : List Timing) (off now songLength base dr : ℚ) (endI : ℤ)
    (a : ℕ) :
    wDelta ts off now songLength base dr (a : ℤ) endI (a : ℤ) =
      (tTime ts (a + 1) + off - now) * (tBpm ts a / base) * dr := by
  unfold wDelta tTimeZ tBpmZ
  rw [if_pos rfl, show ((a : ℤ) + 1).toNat = a + 1 by omega,
    show ((a : ℤ)).toNat = a by omega]

/-- The interior form of `wDelta`. -/
theorem wDelta_mid (ts : List Timing) (off now songLength base dr : ℚ)
    (start endI : ℤ) (i : ℕ) (h1 : (i : ℤ) ≠ start) (h2 : (i : ℤ) ≠ endI) :
    wDelta ts off now songLength base dr start endI (i : ℤ) =
      (tTime ts (i + 1) - tTime ts i) * (tBpm ts i / base) * dr := by
  unfold wDelta tTimeZ tBpmZ
  rw [if_neg h1, if_neg h2, show ((i : ℤ) + 1).toNat = i + 1 by omega,
    show ((i : ℤ)).toNat = i by omega]

/-- The final-segment form of `wDelta`. -/
theorem wDelta_last (ts : List Timing) (off now songLength base dr : ℚ)
    (start : ℤ) (i : ℕ) (h1 : (i : ℤ) ≠ start) :
    wDelta ts off now songLength base dr start (i : ℤ) (i : ℤ) =
      (songLength - tTime ts i - off) * (tBpm ts i / base) * dr := by
  unfold wDelta tTimeZ tBpmZ
  rw [if_neg h1, if_pos rfl, show ((i : ℤ)).toNat = i by omega]

theorem walkAcc_start (ts : List Timing) (dr y : ℚ) (a : ℕ) :
    walkAcc ts dr y a (a : ℤ) = 0 := by
  unfold walkAcc
  rw [if_pos rfl]

theorem walkAcc_at (ts : List Timing) (dr y : ℚ) (a i : ℕ) (hi : a < i) :
    walkAcc ts dr y a (i : ℤ) =
      (tTime ts (a + 1) - y) * segRate ts dr a + iSum ts dr (a + 1) i := by
  unfold walkAcc
  rw [if_neg (by omega), show ((i : ℤ)).toNat = i by omega]

/-- `walkAcc` satisfies the walk recurrence: each step adds the segment's
`wDelta`. -/
theorem walkAcc_step (ts : List Timing) (dr off now songLength : ℚ) (a : ℕ)
    {i : ℤ} (hai : (a : ℤ) ≤ i) (hiE : i < (ts.length : ℤ) - 1) :
    walkAcc ts dr (now - off) a (i + 1) =
      walkAcc ts dr (now - off) a i +
        wDelta ts off now songLength (getBaseBpm ts) dr (a : ℤ)
          ((ts.length : ℤ) - 1) i := by
  rcases eq_or_lt_of_le hai with he | hl
  · rw [← he, walkAcc_start,
      show ((a : ℤ) + 1) = ((a + 1 : ℕ) : ℤ) by push_cast; ring,
      walkAcc_at ts dr _ a (a + 1) (by omega), wDelta_head,
      iSum_empty ts dr (le_refl (a + 1))]
    unfold segRate
    ring
  · obtain ⟨m, hm⟩ : ∃ m : ℕ, (m : ℤ) = i := ⟨i.toNat, by omega⟩
    rw [← hm, show ((m : ℤ) + 1) = ((m + 1 : ℕ) : ℤ) by push_cast; ring,
      walkAcc_at ts dr _ a (m + 1) (by omega), walkAcc_at ts dr _ a m (by omega),
      wDelta_mid ts off now songLength (getBaseBpm ts) dr ((a : ℕ) : ℤ)
        ((ts.length : ℤ) - 1) m (by omega) (by omega),
      iSum_split ts dr (show a + 1 ≤ m by omega) (show m ≤ m + 1 by omega),
      iSum_single]
    unfold segRate
    ring

/-- Branch form of `getTimingByPos` when the current time already sits in the
last breakpoint interval: direct inversion of the rate equation. -/
theorem getTimingByPos_last {ts : List Timing} (hts : TimeSorted ts) (hne : ts ≠ [])
    (dr off now songLength pos : ℚ) (depth : ℕ)
    (hA : segIdx ts (now - off) = ts.length - 1) :
    getTimingByPos ts dr off now songLength pos depth =
      floorClamp songLength
        (pos / (bpmOr1 (tBpm ts (ts.length - 1)) / getBaseBpm ts * dr) + now) := by
  have hlen : ts.length ≠ 0 := fun h0 => hne (List.length_eq_zero.mp h0)
  unfold getTimingByPos
  dsimp only
  rw [gtbpStart_eq_segIdx hts hne, hA,
    if_neg (show ¬(((ts.length - 1 : ℕ) : ℤ) ≠ (ts.length : ℤ) - 1) by push_neg; omega),
    show tBpmZ ts ((ts.length : ℤ) - 1) = tBpm ts (ts.length - 1) from by
      unfold tBpmZ; congr 1; omega]

/-- Branch form of `getTimingByPos` when the walk stops with a bracketing
segment. -/
theorem getTimingByPos_walk {ts : List Timing} (hts : TimeSorted ts) (hne : ts ≠ [])
    (dr off now songLength pos : ℚ) (depth : ℕ) (a : ℕ)
    (ha : segIdx ts (now - off) = a) (hAlt : a < ts.length - 1)
    (bp : ℤ) (sp : ℚ)
    (hw : walkGo ts off now songLength (getBaseBpm ts) dr pos ((a : ℕ) : ℤ)
        ((ts.length : ℤ) - 1) (walkIdxs ((a : ℕ) : ℤ) ((ts.length : ℤ) - 1)) 0 depth
      = (some bp, sp)) :
    getTimingByPos ts dr off now songLength pos depth =
      floorClamp songLength
        (if bp = ((a : ℕ) : ℤ) then
          if pos - sp = 0 then (if tBpmZ ts bp = 0 then tTimeZ ts bp + off else now)
          else (pos - sp) / (bpmOr1 (tBpmZ ts bp) / getBaseBpm ts * dr) + now
        else (pos - sp) / (bpmOr1 (tBpmZ ts bp) / getBaseBpm ts * dr)
          + tTimeZ ts bp + off) := by
  have hlen : ts.length ≠ 0 := fun h0 => hne (List.length_eq_zero.mp h0)
  unfold getTimingByPos
  dsimp only
  rw [gtbpStart_eq_segIdx hts hne, ha,
    if_pos (show (((a : ℕ) : ℤ)) ≠ (ts.length : ℤ) - 1 by omega), hw]

/-- The walk branch of the inverse conversion: when the current time sits
strictly before the last breakpoint interval and the target avoids the
breakpoint boundaries at or beyond two intervals past the current one, the
depth-`0` inverse of the forward position is exactly `⌊t⌋`. -/
theorem getTimingByPos_walk_inv {ts : List Timing} (h : StrictTimeSorted ts)
    (hne : ts ≠ []) (hb : ∀ e ∈ ts, 0 < e.bpm) {dr : ℚ} (hdr : 0 < dr)
    {off now songLength t : ℚ} {a : ℕ}
    (ha : segIdx ts (now - off) = a) (hAlt : a < ts.length - 1)
    (hnt : now ≤ t) (htl : t < songLength)
    (hbound : ∀ k : ℕ, a + 2 ≤ k → k ≤ ts.length - 1 → t ≠ tTime ts k + off) :
    getTimingByPos ts dr off now songLength (posCore ts dr (now - off) (t - off)) 0
      = (⌊t⌋ : ℚ) := by
  have hts : TimeSorted ts := TimeSorted.of_strict h
  have hlen : ts.length ≠ 0 := fun h0 => hne (List.length_eq_zero.mp h0)
  have hyT : now - off < tTime ts (a + 1) := by
    have hx := segIdx_lt_next hts hne (now - off) (by omega)
    rwa [ha] at hx
  have hRa : 0 < segRate ts dr a := segRate_pos hb hne hdr (by omega)
  have hdH : 0 < (tTime ts (a + 1) - (now - off)) * segRate ts dr a :=
    mul_pos (by linarith) hRa
  have hable : a ≤ segIdx ts (t - off) := by
    have hx := segIdx_mono hts hne (show now - off ≤ t - off by linarith)
    omega
  have hble : segIdx ts (t - off) ≤ ts.length - 1 := segIdx_le hts hne (t - off)
  by_cases hcase : posCore ts dr (now - off) (t - off)
      ≤ (tTime ts (a + 1) - (now - off)) * segRate ts dr a
  · -- the head segment's non-strict test brackets the position
    have hp0 : 0 ≤ posCore ts dr (now - off) (t - off) := by
      rcases eq_or_lt_of_le (show now - off ≤ t - off by linarith) with he | hl
      · rw [← he, posCore_self]
      · exact le_of_lt (posCore_pos hts hne hb hdr hl)
    have hsucc : brTest (decide (((a : ℕ) : ℤ) = ((a : ℕ) : ℤ))) 0
        (wDelta ts off now songLength (getBaseBpm ts) dr ((a : ℕ) : ℤ)
          ((ts.length : ℤ) - 1) ((a : ℕ) : ℤ))
        (posCore ts dr (now - off) (t - off)) = true := by
      rw [wDelta_head]
      unfold brTest
      rw [if_pos (by simp), decide_eq_true_eq]
      right
      have heq : (tTime ts (a + 1) + off - now) * (tBpm ts a / getBaseBpm ts) * dr
          = (tTime ts (a + 1) - (now - off)) * segRate ts dr a := by
        unfold segRate; ring
      rw [heq]
      exact ⟨by linarith, hp0⟩
    have hwalk : walkGo ts off now songLength (getBaseBpm ts) dr
        (posCore ts dr (now - off) (t - off)) ((a : ℕ) : ℤ) ((ts.length : ℤ) - 1)
        (walkIdxs ((a : ℕ) : ℤ) ((ts.length : ℤ) - 1)) 0 0
        = (some ((a : ℕ) : ℤ), 0) :=
      walkGo_reach ts off now songLength (getBaseBpm ts) dr
        (posCore ts dr (now - off) (t - off)) ((a : ℕ) : ℤ) ((ts.length : ℤ) - 1)
        (fun _ => 0) ((a : ℕ) : ℤ) (by omega) hsucc 0 ((a : ℕ) : ℤ) (by omega)
        (le_refl _)
        (fun i hi1 hi2 => absurd (lt_of_le_of_lt hi1 hi2) (lt_irrefl _))
        (fun i hi1 hi2 => absurd (lt_of_le_of_lt hi1 hi2) (lt_irrefl _))
    rw [getTimingByPos_walk hts hne dr off now songLength
      (posCore ts dr (now - off) (t - off)) 0 a ha hAlt ((a : ℕ) : ℤ) 0 hwalk]
    rw [if_pos rfl, sub_zero]
    have hbz : tBpmZ ts ((a : ℕ) : ℤ) = tBpm ts a := by
      unfold tBpmZ; rw [show (((a : ℕ) : ℤ)).toNat = a by omega]
    by_cases hpz : posCore ts dr (now - off) (t - off) = 0
    · rw [if_pos hpz, hbz, if_neg (ne_of_gt (tBpm_pos hb (by omega)))]
      have htn : t = now := by
        rcases eq_or_lt_of_le hnt with he | hl
        · exact he.symm
        · exfalso
          have hx := posCore_pos hts hne hb hdr (show now - off < t - off by linarith)
          linarith
      rw [show now = t from htn.symm, floorClamp_of_le (le_of_lt htl)]
    · rw [if_neg hpz, hbz,
        show bpmOr1 (tBpm ts a) = tBpm ts a from by
          unfold bpmOr1; rw [if_neg (ne_of_gt (tBpm_pos hb (by omega)))]]
      have hposeq : posCore ts dr (now - off) (t - off)
          = (t - now) * segRate ts dr a := by
        by_cases habx : segIdx ts (t - off) = a
        · rw [posCore_same dr (show segIdx ts (now - off) = segIdx ts (t - off) by omega),
            ha]
          ring
        · have hab2 : a < segIdx ts (t - off) := by omega
          have hdec := posCore_decomp hts hne dr (show now - off ≤ t - off by linarith)
            (show segIdx ts (now - off) ≠ segIdx ts (t - off) by omega)
          rw [ha] at hdec
          have hM : 0 ≤ iSum ts dr (a + 1) (segIdx ts (t - off)) :=
            iSum_nonneg hts hb hne hdr hble
          have hTbx : tTime ts (segIdx ts (t - off)) ≤ t - off :=
            segIdx_time_le hts hne (t - off) (by omega)
          have hRb : 0 < segRate ts dr (segIdx ts (t - off)) :=
            segRate_pos hb hne hdr (by omega)
          have hE : 0 ≤ (t - off - tTime ts (segIdx ts (t - off)))
              * segRate ts dr (segIdx ts (t - off)) :=
            mul_nonneg (by linarith) (le_of_lt hRb)
          have hM0 : iSum ts dr (a + 1) (segIdx ts (t - off)) = 0 := by linarith
          have hE0 : (t - off - tTime ts (segIdx ts (t - off)))
              * segRate ts dr (segIdx ts (t - off)) = 0 := by linarith
          have hb1 : segIdx ts (t - off) = a + 1 := by
            by_contra hbne
            have hsplit := iSum_split ts dr (show a + 1 ≤ a + 2 by omega)
              (show a + 2 ≤ segIdx ts (t - off) by omega)
            have hsingle : iSum ts dr (a + 1) (a + 2)
                = (tTime ts (a + 2) - tTime ts (a + 1)) * segRate ts dr (a + 1) := by
              have hx := iSum_single ts dr (a + 1)
              rwa [show a + 1 + 1 = a + 2 by omega] at hx
            have hTT : tTime ts (a + 1) < tTime ts (a + 2) := by
              have hx := tTime_lt_succ h (show a + 1 + 1 < ts.length by omega)
              rwa [show a + 1 + 1 = a + 2 by omega] at hx
            have hR1 : 0 < segRate ts dr (a + 1) := segRate_pos hb hne hdr (by omega)
            have h2 : 0 ≤ iSum ts dr (a + 2) (segIdx ts (t - off)) :=
              iSum_nonneg hts hb hne hdr hble
            have hps : 0 < (tTime ts (a + 2) - tTime ts (a + 1)) * segRate ts dr (a + 1) :=
              mul_pos (by linarith) hR1
            linarith
          have ht1 : tTime ts (a + 1) = t - off := by
            rw [hb1] at hE0
            rcases mul_eq_zero.mp hE0 with h1 | h2
            · linarith
            · exact absurd h2 (ne_of_gt (segRate_pos hb hne hdr (by omega)))
          rw [hdec, hM0, hb1, ht1]
          ring
      rw [hposeq,
        show tBpm ts a / getBaseBpm ts * dr = segRate ts dr a from rfl,
        mul_div_assoc, div_self (ne_of_gt hRa), mul_one,
        show t - now + now = t by ring,
        floorClamp_of_le (le_of_lt htl)]
  · -- the bracketing segment lies beyond the head
    have hposgt := not_le.mp hcase
    have hyx : now - off < t - off := by
      rcases eq_or_lt_of_le (show now - off ≤ t - off by linarith) with he | hl
      · exfalso
        rw [← he, posCore_self] at hposgt
        linarith
      · exact hl
    have hab2 : a < segIdx ts (t - off) := by
      rcases Nat.eq_or_lt_of_le hable with he | hl
      · exfalso
        have hxlt : t - off < tTime ts (a + 1) := by
          have hx := segIdx_lt_next hts hne (t - off) (by omega)
          rwa [← he] at hx
        have hps := posCore_same dr
          (show segIdx ts (now - off) = segIdx ts (t - off) by omega)
        rw [ha] at hps
        rw [hps] at hposgt
        have hxr := mul_lt_mul_of_pos_right (show t - off - (now - off)
          < tTime ts (a + 1) - (now - off) by linarith) hRa
        linarith
      · exact hl
    have hdec := posCore_decomp hts hne dr (show now - off ≤ t - off by linarith)
      (show segIdx ts (now - off) ≠ segIdx ts (t - off) by omega)
    rw [ha] at hdec
    have hM : 0 ≤ iSum ts dr (a + 1) (segIdx ts (t - off)) :=
      iSum_nonneg hts hb hne hdr hble
    have hTbx : tTime ts (segIdx ts (t - off)) ≤ t - off :=
      segIdx_time_le hts hne (t - off) (by omega)
    have hRb : 0 < segRate ts dr (segIdx ts (t - off)) :=
      segRate_pos hb hne hdr (by omega)
    have hxTb : tTime ts (segIdx ts (t - off)) < t - off := by
      rcases lt_or_eq_of_le hTbx with hl | he
      · exact hl
      · exfalso
        rcases Nat.eq_or_lt_of_le (show a + 1 ≤ segIdx ts (t - off) by omega)
          with he1 | hl1
        · have hM0 : iSum ts dr (a + 1) (segIdx ts (t - off)) = 0 := by
            rw [← he1]
            exact iSum_empty ts dr (le_refl (a + 1))
          have hE0 : (t - off - tTime ts (segIdx ts (t - off)))
              * segRate ts dr (segIdx ts (t - off)) = 0 := by
            have hx : t - off - tTime ts (segIdx ts (t - off)) = 0 := by linarith
            rw [hx]
            ring
          linarith
        · exact hbound (segIdx ts (t - off)) (by omega) hble (by linarith)
    have hE : 0 < (t - off - tTime ts (segIdx ts (t - off)))
        * segRate ts dr (segIdx ts (t - off)) :=
      mul_pos (by linarith) hRb
    have hdne : ¬((((segIdx ts (t - off) : ℕ)) : ℤ) = ((a : ℕ) : ℤ)) := by omega
    have hsb : walkAcc ts dr (now - off) a (((segIdx ts (t - off) : ℕ)) : ℤ)
        = (tTime ts (a + 1) - (now - off)) * segRate ts dr a
          + iSum ts dr (a + 1) (segIdx ts (t - off)) :=
      walkAcc_at ts dr (now - off) a (segIdx ts (t - off)) hab2
    have hsucc : brTest (decide ((((segIdx ts (t - off) : ℕ)) : ℤ) = ((a : ℕ) : ℤ)))
        (walkAcc ts dr (now - off) a (((segIdx ts (t - off) : ℕ)) : ℤ))
        (wDelta ts off now songLength (getBaseBpm ts) dr ((a : ℕ) : ℤ)
          ((ts.length : ℤ) - 1) (((segIdx ts (t - off) : ℕ)) : ℤ))
        (posCore ts dr (now - off) (t - off)) = true := by
      unfold brTest
      rw [decide_eq_false hdne, if_neg (by simp), decide_eq_true_eq]
      right
      constructor
      · rcases Nat.eq_or_lt_of_le hble with hbe | hbl
        · have hdeq : wDelta ts off now songLength (getBaseBpm ts) dr ((a : ℕ) : ℤ)
              ((ts.length : ℤ) - 1) (((segIdx ts (t - off) : ℕ)) : ℤ)
              = (songLength - tTime ts (segIdx ts (t - off)) - off)
                * segRate ts dr (segIdx ts (t - off)) := by
            rw [show ((ts.length : ℤ) - 1) = (((segIdx ts (t - off) : ℕ)) : ℤ) by omega,
              wDelta_last ts off now songLength (getBaseBpm ts) dr ((a : ℕ) : ℤ)
                (segIdx ts (t - off)) (by omega)]
            unfold segRate
            ring
          have hlt : (t - off - tTime ts (segIdx ts (t - off)))
              * segRate ts dr (segIdx ts (t - off))
              < (songLength - tTime ts (segIdx ts (t - off)) - off)
                * segRate ts dr (segIdx ts (t - off)) :=
            mul_lt_mul_of_pos_right (by linarith) hRb
          rw [hdeq, hsb]
          linarith
        · have hxn : t - off < tTime ts (segIdx ts (t - off) + 1) :=
            segIdx_lt_next hts hne (t - off) hbl
          have hdeq : wDelta ts off now songLength (getBaseBpm ts) dr ((a : ℕ) : ℤ)
              ((ts.length : ℤ) - 1) (((segIdx ts (t - off) : ℕ)) : ℤ)
              = (tTime ts (segIdx ts (t - off) + 1) - tTime ts (segIdx ts (t - off)))
                * segRate ts dr (segIdx ts (t - off)) := by
            rw [wDelta_mid ts off now songLength (getBaseBpm ts) dr ((a : ℕ) : ℤ)
              ((ts.length : ℤ) - 1) (segIdx ts (t - off)) (by omega) (by omega)]
            unfold segRate
            ring
          have hlt : (t - off - tTime ts (segIdx ts (t - off)))
              * segRate ts dr (segIdx ts (t - off))
              < (tTime ts (segIdx ts (t - off) + 1) - tTime ts (segIdx ts (t - off)))
                * segRate ts dr (segIdx ts (t - off)) :=
            mul_lt_mul_of_pos_right (by linarith) hRb
          rw [hdeq, hsb]
          linarith
      · rw [hsb]
        linarith
    have hfail : ∀ i : ℤ, ((a : ℕ) : ℤ) ≤ i → i < (((segIdx ts (t - off) : ℕ)) : ℤ) →
        brTest (decide (i = ((a : ℕ) : ℤ))) (walkAcc ts dr (now - off) a i)
          (wDelta ts off now songLength (getBaseBpm ts) dr ((a : ℕ) : ℤ)
            ((ts.length : ℤ) - 1) i)
          (posCore ts dr (now - off) (t - off)) = false := by
      intro i hai hib
      have hstep := walkAcc_step ts dr off now songLength a hai (by omega)
      have hnext : walkAcc ts dr (now - off) a (i + 1)
          ≤ walkAcc ts dr (now - off) a (((segIdx ts (t - off) : ℕ)) : ℤ) := by
        rcases eq_or_lt_of_le (show i + 1 ≤ (((segIdx ts (t - off) : ℕ)) : ℤ) by omega)
          with he | hl
        · exact le_of_eq (by rw [he])
        · obtain ⟨m, hm⟩ : ∃ m : ℕ, (m : ℤ) = i + 1 := ⟨(i + 1).toNat, by omega⟩
          rw [← hm, walkAcc_at ts dr (now - off) a m (by omega), hsb]
          have hsp := iSum_split ts dr (show a + 1 ≤ m by omega)
            (show m ≤ segIdx ts (t - off) by omega)
          have hnn : 0 ≤ iSum ts dr m (segIdx ts (t - off)) :=
            iSum_nonneg hts hb hne hdr hble
          linarith
      have hdpos : walkAcc ts dr (now - off) a i
          ≤ walkAcc ts dr (now - off) a (i + 1) := by
        rcases eq_or_lt_of_le hai with he | hl
        · rw [← he, walkAcc_start,
            show ((a : ℕ) : ℤ) + 1 = ((a + 1 : ℕ) : ℤ) by push_cast; ring,
            walkAcc_at ts dr (now - off) a (a + 1) (by omega),
            iSum_empty ts dr (le_refl (a + 1))]
          linarith
        · obtain ⟨m, hm⟩ : ∃ m : ℕ, (m : ℤ) = i := ⟨i.toNat, by omega⟩
          rw [← hm, show ((m : ℤ) + 1) = ((m + 1 : ℕ) : ℤ) by push_cast; ring,
            walkAcc_at ts dr (now - off) a m (by omega),
            walkAcc_at ts dr (now - off) a (m + 1) (by omega)]
          have hsp := iSum_split ts dr (show a + 1 ≤ m by omega)
            (show m ≤ m + 1 by omega)
          have hone : iSum ts dr m (m + 1)
              = (tTime ts (m + 1) - tTime ts m) * segRate ts dr m := iSum_single ts dr m
          have hTT : tTime ts m ≤ tTime ts (m + 1) := tTime_le_succ hts (by omega)
          have hRm : 0 < segRate ts dr m := segRate_pos hb hne hdr (by omega)
          have hps : 0 ≤ (tTime ts (m + 1) - tTime ts m) * segRate ts dr m :=
            mul_nonneg (by linarith) (le_of_lt hRm)
          linarith
      have hsb_lt : walkAcc ts dr (now - off) a (((segIdx ts (t - off) : ℕ)) : ℤ)
          < posCore ts dr (now - off) (t - off) := by
        rw [hsb]
        linarith
      rcases eq_or_lt_of_le hai with he | hl
      · rw [← he, walkAcc_start, wDelta_head]
        unfold brTest
        rw [if_pos (by simp), decide_eq_false_iff_not]
        rintro (⟨h1, h2⟩ | ⟨h1, h2⟩)
        · linarith
        · have heq : (tTime ts (a + 1) + off - now) * (tBpm ts a / getBaseBpm ts) * dr
              = (tTime ts (a + 1) - (now - off)) * segRate ts dr a := by
            unfold segRate; ring
          rw [heq] at h1
          linarith
      · rw [decide_eq_false (show ¬(i = ((a : ℕ) : ℤ)) by omega)]
        unfold brTest
        rw [if_neg (by simp), decide_eq_false_iff_not]
        rintro (⟨h1, h2⟩ | ⟨h1, h2⟩)
        · linarith
        · linarith
    have hwalk := walkGo_reach ts off now songLength (getBaseBpm ts) dr
      (posCore ts dr (now - off) (t - off)) ((a : ℕ) : ℤ) ((ts.length : ℤ) - 1)
      (walkAcc ts dr (now - off) a) (((segIdx ts (t - off) : ℕ)) : ℤ)
      (by omega) hsucc
      (((((segIdx ts (t - off) : ℕ)) : ℤ) - ((a : ℕ) : ℤ)).toNat) ((a : ℕ) : ℤ) rfl
      (by omega)
      (fun i hi1 hi2 => walkAcc_step ts dr off now songLength a hi1 (by omega))
      hfail
    rw [walkAcc_start] at hwalk
    rw [getTimingByPos_walk hts hne dr off now songLength
      (posCore ts dr (now - off) (t - off)) 0 a ha hAlt
      (((segIdx ts (t - off) : ℕ)) : ℤ)
      (walkAcc ts dr (now - off) a (((segIdx ts (t - off) : ℕ)) : ℤ)) hwalk]
    rw [if_neg hdne]
    rw [show tBpmZ ts (((segIdx ts (t - off) : ℕ)) : ℤ) = tBpm ts (segIdx ts (t - off))
        from by
        unfold tBpmZ
        rw [show ((((segIdx ts (t - off) : ℕ)) : ℤ)).toNat = segIdx ts (t - off) by omega],
      show tTimeZ ts (((segIdx ts (t - off) : ℕ)) : ℤ) = tTime ts (segIdx ts (t - off))
        from by
        unfold tTimeZ
        rw [show ((((segIdx ts (t - off) : ℕ)) : ℤ)).toNat = segIdx ts (t - off) by omega],
      show bpmOr1 (tBpm ts (segIdx ts (t - off))) = tBpm ts (segIdx ts (t - off)) from by
        unfold bpmOr1
        rw [if_neg (ne_of_gt (tBpm_pos hb (by omega)))],
      hsb]
    have hspE : posCore ts dr (now - off) (t - off)
        - ((tTime ts (a + 1) - (now - off)) * segRate ts dr a
          + iSum ts dr (a + 1) (segIdx ts (t - off)))
        = (t - off - tTime ts (segIdx ts (t - off)))
          * segRate ts dr (segIdx ts (t - off)) := by
      linarith
    rw [hspE,
      show tBpm ts (segIdx ts (t - off)) / getBaseBpm ts * dr
        = segRate ts dr (segIdx ts (t - off)) from rfl,
      mul_div_assoc, div_self (ne_of_gt hRb), mul_one,
      show t - off - tTime ts (segIdx ts (t - off)) + tTime ts (segIdx ts (t - off)) + off
        = t by ring,
      floorClamp_of_le (le_of_lt htl)]

/-- C1 (amended): for a strictly time-sorted non-empty timing group with
all-positive bpm and positive drop rate, a fixed current time `now ≤ t`, a
target `t` reachable before the song ends (`t < songLength`, with the last
breakpoint itself inside the song), and `t` not exactly on a breakpoint
boundary lying at least two intervals past the current one (those boundary
positions are missed by the walk's strict bracket tests — see the
counterexample), `getTimingByPos (getPosByTimingWithStart now t) 0` equals
`t` to within 1 millisecond. -/
theorem claim_C1_thm (ts : List Timing) (dr off now songLength t : ℚ)
    (h : StrictTimeSorted ts) (hne : ts ≠ [])
    (hb : ∀ e ∈ ts, 0 < e.bpm) (hdr : 0 < dr)
    (hnt : now ≤ t) (htl : t < songLength)
    (hbound : ∀ k : ℕ, segIdx ts (now - off) + 2 ≤ k → k ≤ ts.length - 1 →
      t ≠ tTime ts k + off) :
    |getTimingByPos ts dr off now songLength
        (getPosByTimingWithStart ts dr off now t) 0 - t| < 1 := by
  have hts : TimeSorted ts := TimeSorted.of_strict h
  have hlen : ts.length ≠ 0 := fun h0 => hne (List.length_eq_zero.mp h0)
  rw [getPos_forward ts dr off hnt]
  rcases Nat.eq_or_lt_of_le (segIdx_le hts hne (now - off)) with hA | hAlt
  · rw [getTimingByPos_last hts hne dr off now songLength
      (posCore ts dr (now - off) (t - off)) 0 hA]
    have hbeq : segIdx ts (t - off) = segIdx ts (now - off) := by
      have h1 := segIdx_le hts hne (t - off)
      have h2 := segIdx_mono hts hne (show now - off ≤ t - off by linarith)
      omega
    rw [posCore_same dr hbeq.symm, hA]
    have hRl : 0 < segRate ts dr (ts.length - 1) := segRate_pos hb hne hdr (by omega)
    rw [show bpmOr1 (tBpm ts (ts.length - 1)) = tBpm ts (ts.length - 1) from by
        unfold bpmOr1
        rw [if_neg (ne_of_gt (tBpm_pos hb (by omega)))],
      show tBpm ts (ts.length - 1) / getBaseBpm ts * dr = segRate ts dr (ts.length - 1)
        from rfl,
      mul_div_assoc, div_self (ne_of_gt hRl), mul_one,
      show t - off - (now - off) + now = t by ring,
      floorClamp_of_le (le_of_lt htl)]
    exact abs_floor_sub_lt_one t
  · rw [getTimingByPos_walk_inv h hne hb hdr rfl hAlt hnt htl hbound]
    exact abs_floor_sub_lt_one t

theorem claim_C1_witness :
    StrictTimeSorted [⟨0, 2⟩, ⟨4, 2⟩] ∧ (0 : ℚ) ≤ 3 ∧ (3 : ℚ) < 10 ∧
      |getTimingByPos [⟨0, 2⟩, ⟨4, 2⟩] 1 0 0 10
        (getPosByTimingWithStart [⟨0, 2⟩, ⟨4, 2⟩] 1 0 0 3) 0 - 3| < 1 := by
  have hlen : ([⟨0, 2⟩, ⟨4, 2⟩] : List Timing).length = 2 := rfl
  have hseg : segIdx [⟨0, 2⟩, ⟨4, 2⟩] ((0 : ℚ) - 0) = 0 := by
    with_unfolding_all decide
  refine ⟨by norm_num [List.chain'_cons], by norm_num, by norm_num, ?_⟩
  refine claim_C1_thm [⟨0, 2⟩, ⟨4, 2⟩] 1 0 0 10 3
    (by norm_num [List.chain'_cons]) (by simp)
    (by with_unfolding_all decide) (by norm_num) (by norm_num) (by norm_num) ?_
  intro k h1 h2
  rw [hseg] at h1
  rw [hlen] at h2
  omega

/-! ## Claim C8: the concrete parse / export round trip -/

set_option maxRecDepth 4000 in
/-- C8: the scenario chart text parses to one primary group holding exactly
the `timing(0,120,4)` event and the `(1000,1)` tap; `export(false)` prints
the offset header and the two event lines back (with `numTo2f` rendering
the bpm and beats as `120.00` and `4.00`), and re-parsing the exported text
gives back the same chart value. -/
theorem claim_C8_thm :
    chartFromRaw (("AudioOffset:0\n-\ntiming(0,120,4);\n(1000,1);\n").data)
      = .ok ⟨some 0, [⟨true, [.timing (some 0) (some 120) (some 4),
          .tap (some 1000) (some 1)]⟩]⟩ ∧
    chartExport false ⟨some 0, [⟨true, [.timing (some 0) (some 120) (some 4),
        .tap (some 1000) (some 1)]⟩]⟩
      = ("AudioOffset:0\n-\ntiming(0,120.00,4.00);\n(1000,1);\n").data ∧
    chartFromRaw (chartExport false ⟨some 0, [⟨true,
        [.timing (some 0) (some 120) (some 4), .tap (some 1000) (some 1)]⟩]⟩)
      = .ok ⟨some 0, [⟨true, [.timing (some 0) (some 120) (some 4),
          .tap (some 1000) (some 1)]⟩]⟩ := by
  refine ⟨?_, ?_, ?_⟩ <;> with_unfolding_all decide

/-! ## Claim C9: event dispatch and malformed lines -/

theorem splitAtFirst_of_not_mem (c : Char) :
    ∀ l : List Char, c ∉ l → splitAtFirst c l = none := by
  intro l
  induction l with
  | nil => intro _; rfl
  | cons x xs ih =>
    intro h
    have hxc : ¬((x == c) = true) := by
      simp only [beq_iff_eq]
      intro he
      exact h (by rw [← he]; exact List.mem_cons_self x xs)
    rw [splitAtFirst, if_neg hxc, ih (fun hm => h (List.mem_cons_of_mem x hm))]

theorem splitAtFirst_append (c : Char) :
    ∀ (pre rest : List Char), c ∉ pre →
      splitAtFirst c (pre ++ c :: rest) = some (pre, rest) := by
  intro pre
  induction pre with
  | nil =>
    intro rest _
    rw [List.nil_append, splitAtFirst, if_pos (by simp)]
  | cons x xs ih =>
    intro rest h
    have hxc : ¬((x == c) = true) := by
      simp only [beq_iff_eq]
      intro he
      exact h (by rw [← he]; exact List.mem_cons_self x xs)
    rw [List.cons_append, splitAtFirst, if_neg hxc,
      ih rest (fun hm => h (List.mem_cons_of_mem x hm))]

theorem splitAtFirst_of_mem (c : Char) :
    ∀ l : List Char, c ∈ l → ∃ pr po, splitAtFirst c l = some (pr, po) := by
  intro l
  induction l with
  | nil => intro h; cases h
  | cons x xs ih =>
    intro h
    rw [splitAtFirst]
    by_cases hxc : (x == c) = true
    · rw [if_pos hxc]
      exact ⟨[], xs, rfl⟩
    · rw [if_neg hxc]
      have hcs : c ∈ xs := by
        rcases List.mem_cons.mp h with he | hm
        · exact absurd (by rw [beq_iff_eq]; exact he.symm) hxc
        · exact hm
      obtain ⟨pr, po, hpr⟩ := ih hcs
      rw [hpr]
      exact ⟨x :: pr, po, rfl⟩

/-- C9 (amended): a body line with no `(` at all produces neither an event
nor an error — `ArcaeaEvent.fromRaw` returns `null` and `Chart.fromRaw`
silently skips the line (contrary to the claim; see the counterexample); a
line with a `(` is never skipped: a recognised prefix yields an event or a
parse error, and an unknown prefix raises
`AffFormatError("Unknown event type: <prefix>.")`. -/
theorem claim_C9_thm (line : List Char) :
    ('(' ∉ line → evFromRaw line = .ok none) ∧
    ('(' ∈ line → evFromRaw line ≠ .ok none) ∧
    (∀ pre rest, line = pre ++ '(' :: rest → '(' ∉ pre →
      pre ≠ [] → pre ≠ strL ("hold") → pre ≠ strL ("arc") → pre ≠ strL ("timing") →
      pre ≠ strL ("camera") →
      evFromRaw line
        = .error (.format (strL ("Unknown event type: ") ++ pre ++ strL (".")))) := by
  refine ⟨?_, ?_, ?_⟩
  · intro h
    rw [evFromRaw, splitAtFirst_of_not_mem '(' line h]
  · intro h
    obtain ⟨pr, po, hpr⟩ := splitAtFirst_of_mem '(' line h
    rw [evFromRaw, hpr]
    dsimp only
    split_ifs
    · cases hx : tapFromRaw line <;> simp [Except.map]
    · cases hx : holdFromRaw line <;> simp [Except.map]
    · cases hx : arcFromRaw line <;> simp [Except.map]
    · cases hx : timingFromRaw line <;> simp [Except.map]
    · cases hx : cameraFromRaw line <;> simp [Except.map]
    · simp
  · intro pre rest heq hni h1 h2 h3 h4 h5
    subst heq
    rw [evFromRaw, splitAtFirst_append '(' pre rest hni]
    dsimp only
    rw [if_neg h1, if_neg h2, if_neg h3, if_neg h4, if_neg h5]

set_option maxRecDepth 4000 in
/-- C9 counterexample: the non-blank body line `foo` is neither a group
delimiter nor a parsable event, yet the parse neither appends an event nor
aborts — the line is silently dropped. -/
theorem claim_C9_counterexample :
    evFromRaw (("foo").data) = .ok none ∧
    chartFromRaw (("AudioOffset:0\n-\nfoo\ntiming(0,120,4);\n").data)
      = .ok ⟨some 0, [⟨true, [.timing (some 0) (some 120) (some 4)]⟩]⟩ := by
  refine ⟨?_, ?_⟩ <;> with_unfolding_all decide

theorem claim_C9_witness :
    evFromRaw (("xyz(1)").data)
      = .error (.format (strL ("Unknown event type: ") ++ ("xyz").data ++ strL ("."))) :=
  (claim_C9_thm (("xyz(1)").data)).2.2 (("xyz").data) (("1)").data)
    (by decide) (by decide) (by decide) (by decide) (by decide) (by decide) (by decide)

/-! ## Claim C10: arc relationship groups -/

theorem getD_set_ne {α : Type} (l : List α) (k i : ℕ) (v d : α) (h : k ≠ i) :
    (l.set k v).getD i d = l.getD i d := by
  simp [List.getD, List.getElem?_set_ne h]

theorem getD_replicate_none {α : Type} (n i : ℕ) :
    (List.replicate n (none : Option α)).getD i none = none := by
  simp [List.getD, List.getElem?_replicate]
  split <;> rfl

theorem allPairs_mem {n : ℕ} {p : ℕ × ℕ} (hp : p ∈ allPairs n) : p.1 < n ∧ p.2 < n := by
  unfold allPairs at hp
  simp only [List.mem_flatten, List.mem_map, List.mem_filter, List.mem_range] at hp
  obtain ⟨l, ⟨i, hi, hl⟩, hpl⟩ := hp
  subst hl
  simp only [List.mem_map, List.mem_filter, List.mem_range] at hpl
  obtain ⟨j, ⟨hj, _⟩, hpj⟩ := hpl
  subst hpj
  exact ⟨hi, hj⟩

/-- A pair whose geometry-and-attribute test fails leaves every group
reference unchanged (only `renderHead` may change). -/
theorem pairStep_gid_of_nomatch (arcs : List ArcR) (st : RelSt) (p q : ℕ)
    (h : (geoMatch (arcs.getD p defA) (arcs.getD q defA)
      && attrMatch (arcs.getD p defA) (arcs.getD q defA)) = false) :
    (pairStep arcs st p q).gid = st.gid := by
  unfold pairStep
  dsimp only
  split
  · rename_i hgeo
    have hattr : attrMatch (arcs.getD p defA) (arcs.getD q defA) = false := by
      rw [hgeo, Bool.true_and] at h
      exact h
    rw [if_neg (show ¬(attrMatch (arcs.getD p defA) (arcs.getD q defA) = true) from by
      rw [hattr]; exact Bool.false_ne_true)]
    split <;> rfl
  · rfl

/-- A pair not involving arc `i` leaves arc `i`'s group reference
unchanged. -/
theorem pairStep_gid_getD_ne (arcs : List ArcR) (st : RelSt) (i p q : ℕ)
    (hp : p ≠ i) (hq : q ≠ i) :
    (pairStep arcs st p q).gid.getD i none = st.gid.getD i none := by
  unfold pairStep
  dsimp only
  split
  · split
    all_goals (try dsimp only)
    all_goals split_ifs with hattr
    all_goals (try rfl)
    all_goals
      rcases hgp : st.gid.getD p none with _ | ga <;>
        rcases hgq : st.gid.getD q none with _ | gb <;>
        (try dsimp only) <;> split <;> (try dsimp only) <;>
        simp [getD_set_ne, hp, hq]
  · rfl

theorem foldl_gid_none (arcs : List ArcR) (i : ℕ) :
    ∀ ps : List (ℕ × ℕ),
      (∀ p ∈ ps, (p.1 = i ∨ p.2 = i) →
        (geoMatch (arcs.getD p.1 defA) (arcs.getD p.2 defA)
          && attrMatch (arcs.getD p.1 defA) (arcs.getD p.2 defA)) = false) →
      ∀ st : RelSt, st.gid.getD i none = none →
        ((ps.foldl (fun st p => pairStep arcs st p.1 p.2) st)).gid.getD i none = none := by
  intro ps
  induction ps with
  | nil => intro _ st h; exact h
  | cons p rest ih =>
    intro hps st h
    rw [List.foldl_cons]
    refine ih (fun r hr hri => hps r (List.mem_cons_of_mem p hr) hri) _ ?_
    by_cases hpi : p.1 = i
    · rw [pairStep_gid_of_nomatch arcs st p.1 p.2
        (hps p (List.mem_cons_self p rest) (Or.inl hpi))]
      exact h
    · by_cases hqi : p.2 = i
      · rw [pairStep_gid_of_nomatch arcs st p.1 p.2
          (hps p (List.mem_cons_self p rest) (Or.inr hqi))]
        exact h
      · rw [pairStep_gid_getD_ne arcs st i p.1 p.2 hpi hqi]
        exact h

theorem insertByTime_sorted (arcs : List ArcR) (x : ℕ) :
    ∀ l : List ℕ,
      List.Chain' (fun u v => (arcs.getD u defA).time ≤ (arcs.getD v defA).time) l →
      List.Chain' (fun u v => (arcs.getD u defA).time ≤ (arcs.getD v defA).time)
        (insertByTime arcs x l) ∧
      ((insertByTime arcs x l).head? = some x ∨
        (insertByTime arcs x l).head? = l.head?) := by
  intro l
  induction l with
  | nil =>
    intro _
    exact ⟨List.chain'_singleton x, Or.inl rfl⟩
  | cons y ys ih =>
    intro hch
    rw [insertByTime]
    split_ifs with hxy
    · refine ⟨?_, Or.inl rfl⟩
      rw [List.chain'_cons]
      exact ⟨hxy, hch⟩
    · have hch2 : List.Chain'
          (fun u v => (arcs.getD u defA).time ≤ (arcs.getD v defA).time) ys :=
        (List.chain'_cons'.mp hch).2
      obtain ⟨hins, hhead⟩ := ih hch2
      have hyx : (arcs.getD y defA).time ≤ (arcs.getD x defA).time :=
        le_of_lt (lt_of_not_le hxy)
      refine ⟨?_, Or.inr rfl⟩
      rw [List.chain'_cons']
      refine ⟨?_, hins⟩
      intro b hb
      rw [Option.mem_def] at hb
      rcases hhead with hh | hh
      · rw [hb] at hh
        have hbx : b = x := Option.some_inj.mp hh
        rw [hbx]
        exact hyx
      · rw [hb] at hh
        exact (List.chain'_cons'.mp hch).1 b (by rw [Option.mem_def, ← hh])

theorem sortByTime_sorted (arcs : List ArcR) :
    ∀ l : List ℕ,
      List.Chain' (fun u v => (arcs.getD u defA).time ≤ (arcs.getD v defA).time)
        (sortByTime arcs l) := by
  intro l
  induction l with
  | nil => exact List.chain'_nil
  | cons x xs ih =>
    exact (insertByTime_sorted arcs x (sortByTime arcs xs) ih).1

/-- C10 (amended): after `calculateArcRelationship` every arc's group is
non-null and sorted ascending by time, and an arc that matches no other arc
(in either direction) receives the fresh singleton group containing only
itself.  Contrary to the claim, an arc that adopts an existing shared group
(`a.arcGroup == null && b.arcGroup != null`) is never itself inserted into
that group, so self-membership can fail — see the counterexample. -/
theorem claim_C10_thm (arcs : List ArcR) (i : ℕ) :
    List.Chain' (fun u v => (arcs.getD u defA).time ≤ (arcs.getD v defA).time)
      (arcGroupOf arcs i) ∧
    ((∀ j, j < arcs.length →
        (geoMatch (arcs.getD i defA) (arcs.getD j defA)
          && attrMatch (arcs.getD i defA) (arcs.getD j defA)) = false ∧
        (geoMatch (arcs.getD j defA) (arcs.getD i defA)
          && attrMatch (arcs.getD j defA) (arcs.getD i defA)) = false) →
      arcGroupOf arcs i = [i]) := by
  constructor
  · unfold arcGroupOf
    split
    · exact sortByTime_sorted arcs [i]
    · exact sortByTime_sorted arcs _
  · intro hiso
    have hg : (relRun arcs).gid.getD i none = none := by
      unfold relRun
      refine foldl_gid_none arcs i (allPairs arcs.length) ?_ _
        (getD_replicate_none arcs.length i)
      intro p hp hpi
      obtain ⟨h1, h2⟩ := allPairs_mem hp
      rcases hpi with he | he
      · rw [he]
        exact (hiso p.2 h2).1
      · rw [he]
        exact (hiso p.1 h1).2
    unfold arcGroupOf
    rw [hg]
    rfl

/-- C10 counterexample: three arcs `P, Q, R` where `P` chains into `R`
first (creating the shared group `[P, R]`) and `Q` then chains into `R`,
adopting that group without ever being inserted: `Q`'s final group is
`[P, R]` and does not contain `Q` itself. -/
theorem claim_C10_counterexample :
    arcGroupOf [⟨0, 1000, -(1/2), 0, 1, 0, 0, false, 0⟩,
        ⟨0, 1000, 1/2, 0, 1, 0, 0, false, 0⟩,
        ⟨1005, 2000, 1, 0, 1/2, 1, 0, false, 0⟩] 1 = [0, 2] ∧
      ¬ ((1 : ℕ) ∈ arcGroupOf [⟨0, 1000, -(1/2), 0, 1, 0, 0, false, 0⟩,
        ⟨0, 1000, 1/2, 0, 1, 0, 0, false, 0⟩,
        ⟨1005, 2000, 1, 0, 1/2, 1, 0, false, 0⟩] 1) := by
  with_unfolding_all decide

theorem claim_C10_witness :
    arcGroupOf [⟨0, 0, 0, 0, 5, 0, 1, false, 0⟩] 0 = [0] := by
  refine (claim_C10_thm [⟨0, 0, 0, 0, 5, 0, 1, false, 0⟩] 0).2 ?_
  intro j hj
  have hj0 : j = 0 := by
    have : ([⟨0, 0, 0, 0, 5, 0, 1, false, 0⟩] : List ArcR).length = 1 := rfl
    omega
  subst hj0
  exact ⟨by with_unfolding_all decide, by with_unfolding_all decide⟩
